import Mathlib

set_option maxRecDepth 8000

/-!
Verification of the xssrecon reflection and filter-probe engine.

This file is a shallow embedding of the Go sources of the
`bytes-Knight/xssrecon` repository:

* `pkg/utils/utils.go` — `GenerateTargetURLs`, the injection-point target
  generator, together with the parts of Go's `net/url` package it calls
  (`url.Parse`, `URL.Query`, `url.Values.Encode`, `URL.String`);
* `pkg/scanner` — the per-candidate pipeline `Scan` / `processBaseURL` /
  `checkSpecialChars` / `printJSON` and the classification of special
  characters, with the network (static `fetch` and headless-browser
  `GetDOM`) abstracted as an environment of partial functions;
* the worker-pool `main`, modelled as a labelled transition system.

Modelling conventions:

* Strings are modelled at the character level (`List Char`); Go operates on
  UTF-8 bytes, and the two agree on characters below U+0080.  Percent
  escaping/unescaping is modelled per character for code points below 256;
  multi-byte UTF-8 escaping is out of the modelled scope.
* Go map iteration order (`for key := range queryParams`) is not specified
  by the language, so the generator takes the iteration order as an explicit
  argument; theorems quantify over all enumerations of the keys.
* Fallible network operations are `String → Option String`; `none` stands
  for an error return.
* `url.Parse` is modelled for the fragment/query splitting and the
  control-character check it performs; other parse failure modes of Go
  (e.g. scheme validation) are out of the modelled scope, as is the
  re-escaping of path and fragment performed by `URL.String` (the model
  keeps both verbatim, which agrees with Go whenever they round-trip).
-/

/-! ## Basic string machinery (Go `strings` package) -/

/-- Go `strings.Contains(hay, needle)`: substring containment. -/
def containsL (hay needle : List Char) : Bool :=
  match hay with
  | [] => needle.isEmpty
  | _ :: t => needle.isPrefixOf hay || containsL t needle

/-- `strings.Contains` on `String`. -/
def goContains (s sub : String) : Bool :=
  containsL s.toList sub.toList

/-- Fuel-driven core of `strings.ReplaceAll`: replaces non-overlapping
leftmost occurrences of `old` by `new`.  The fuel (instantiated with the
length of the subject, which always suffices: every step consumes at least
one character) keeps the recursion structural so that proofs can evaluate
it.  Go inserts `new` between characters when `old` is empty; the engine
only ever calls this with the non-empty placeholder token, and for an empty
`old` the model is the identity. -/
def replaceFuel (old new : List Char) : Nat → List Char → List Char
  | 0, s => s
  | _, [] => []
  | Nat.succ f, c :: rest =>
    if old.isPrefixOf (c :: rest) && !old.isEmpty then
      new ++ replaceFuel old new f (List.drop (old.length - 1) rest)
    else
      c :: replaceFuel old new f rest

/-- Go `strings.ReplaceAll(s, old, new)`. -/
def goReplaceAll (s old new : String) : String :=
  String.mk (replaceFuel old.toList new.toList s.toList.length s.toList)

/-- Split a character list on a separator character; mirrors the
`strings.Cut`-driven loop of `net/url.parseQuery` (which produces the same
segments as splitting on `&`). -/
def splitChar (sep : Char) : List Char → List (List Char)
  | [] => [[]]
  | c :: rest =>
    match splitChar sep rest with
    | [] => [[]]
    | seg :: segs => if c = sep then [] :: seg :: segs else (c :: seg) :: segs

/-- `strings.Cut(s, sep)` for a single-character separator: the part before
the first occurrence and, when the separator occurs, the part after it. -/
def cutChar (sep : Char) : List Char → List Char × Option (List Char)
  | [] => ([], none)
  | c :: rest =>
    if c = sep then ([], some rest)
    else
      match cutChar sep rest with
      | (pre, post) => (c :: pre, post)

/-- Byte-lexicographic strict order on character lists; this is the order
`sort.Strings` uses on the (ASCII) query keys. -/
def lexLt : List Char → List Char → Bool
  | [], [] => false
  | [], _ :: _ => true
  | _ :: _, [] => false
  | a :: as, b :: bs =>
    if a.toNat < b.toNat then true
    else if b.toNat < a.toNat then false
    else lexLt as bs

/-- `strings.Join(segments, "&")`, as produced by `url.Values.Encode`. -/
def joinAmp : List (List Char) → List Char
  | [] => []
  | [s] => s
  | s :: rest => s ++ '&' :: joinAmp rest

/-! ## Percent escaping (Go `net/url` escape/unescape, query mode) -/

/-- Value of one hexadecimal digit character, as accepted by
`net/url.unhex` (`0`–`9` is 48–57, `a`–`f` is 97–102, `A`–`F` is
65–70). -/
def hexVal (c : Char) : Option Nat :=
  if 48 ≤ c.toNat ∧ c.toNat ≤ 57 then some (c.toNat - 48)
  else if 97 ≤ c.toNat ∧ c.toNat ≤ 102 then some (c.toNat - 97 + 10)
  else if 65 ≤ c.toNat ∧ c.toNat ≤ 70 then some (c.toNat - 65 + 10)
  else none

/-- Upper-case hexadecimal digit for a value below 16 (Go's
`upperhex` table). -/
def upperHexDigit (n : Nat) : Char :=
  if n < 10 then Char.ofNat (48 + n) else Char.ofNat (65 + n - 10)

/-- Characters Go's `shouldEscape` leaves untouched in a query component:
ASCII alphanumerics (`A`–`Z` is 65–90, `a`–`z` is 97–122, `0`–`9` is
48–57) and `-_.~` (45, 95, 46, 126). -/
def isUnreserved (c : Char) : Bool :=
  (65 ≤ c.toNat && c.toNat ≤ 90) || (97 ≤ c.toNat && c.toNat ≤ 122) ||
    (48 ≤ c.toNat && c.toNat ≤ 57) ||
    c.toNat = 45 || c.toNat = 95 || c.toNat = 46 || c.toNat = 126

/-- Escape one character as `net/url.QueryEscape` escapes one byte: keep
unreserved characters, turn a space into `+`, percent-encode the rest.
Characters at or above 256 (which Go would escape as several UTF-8 bytes)
are kept verbatim; they are out of the modelled scope. -/
def escapeChar (c : Char) : List Char :=
  if isUnreserved c then [c]
  else if c = ' ' then ['+']
  else if c.toNat < 256 then
    ['%', upperHexDigit (c.toNat / 16), upperHexDigit (c.toNat % 16)]
  else [c]

/-- `net/url.QueryEscape` over a character list. -/
def queryEscape (s : List Char) : List Char :=
  s.flatMap escapeChar

/-- `net/url.QueryUnescape` (query mode): `+` becomes a space, `%XY`
becomes the character with that code, anything else is copied; a malformed
percent escape fails the whole unescape, exactly as in Go (where the failed
pair is then dropped by `parseQuery`). -/
def unescapeL : List Char → Option (List Char)
  | [] => some []
  | c :: rest =>
    if c = '%' then
      match rest with
      | a :: b :: rest2 =>
        match hexVal a, hexVal b with
        | some x, some y => (unescapeL rest2).map (fun t => Char.ofNat (16 * x + y) :: t)
        | _, _ => none
      | _ => none
    else if c = '+' then (unescapeL rest).map (fun t => ' ' :: t)
    else (unescapeL rest).map (fun t => c :: t)

/-! ## `url.Values` and query parsing/encoding -/

/-- `url.Values`: for the model, an association list from keys to value
lists.  Go stores this as a map; the model keeps first-appearance order and
treats the order as irrelevant wherever Go's map makes it so. -/
abbrev Values := List (String × List String)

/-- Append one parsed `key=value` pair, as `m[key] = append(m[key], value)`
does on a Go map. -/
def addValue (vs : Values) (k v : String) : Values :=
  match vs with
  | [] => [(k, [v])]
  | (k2, ws) :: rest =>
    if k2 = k then (k2, ws ++ [v]) :: rest else (k2, ws) :: addValue rest k v

/-- The keys of a `Values`, in the order the association list holds them. -/
def keysOf (vs : Values) : List String :=
  vs.map (fun p => p.1)

/-- Lookup of a key's value list (empty when absent), as reading a Go map. -/
def getValues (vs : Values) (k : String) : List String :=
  match vs with
  | [] => []
  | (k2, ws) :: rest => if k2 = k then ws else getValues rest k

/-- Parse one `&`-separated segment of a query string, as the body of the
loop in `net/url.parseQuery`: a segment containing `;` is rejected, an
empty segment is skipped, otherwise the segment is cut at the first `=`
and both halves are query-unescaped; an unescape failure drops the pair. -/
def parsePair (seg : List Char) : Option (List Char × List Char) :=
  if ';' ∈ seg then none
  else if seg = [] then none
  else
    let k := seg.takeWhile (fun c => c ≠ '=')
    let v := (seg.dropWhile (fun c => c ≠ '=')).drop 1
    match unescapeL k, unescapeL v with
    | some k2, some v2 => some (k2, v2)
    | _, _ => none

/-- One iteration of the `net/url.parseQuery` loop: a skipped segment
leaves the map alone, a parsed pair is added. -/
def qstep (acc : Values) (seg : List Char) : Values :=
  match parsePair seg with
  | none => acc
  | some (k, v) => addValue acc (String.mk k) (String.mk v)

/-- `net/url.ParseQuery`, with errors dropped exactly as `URL.Query()`
drops them: bad pairs are skipped, the rest are collected. -/
def parseQueryValues (raw : String) : Values :=
  (splitChar '&' raw.toList).foldl qstep []

/-- Insertion into a key-sorted association list (byte order on keys), the
order `sort.Strings` produces inside `url.Values.Encode`. -/
def insertByKey (p : String × List String) : Values → Values
  | [] => [p]
  | q :: rest =>
    if lexLt q.1.toList p.1.toList then q :: insertByKey p rest else p :: q :: rest

/-- Sort a `Values` by key, as `url.Values.Encode` sorts the map keys. -/
def sortKeys : Values → Values
  | [] => []
  | p :: rest => insertByKey p (sortKeys rest)

/-- The `key=value` segments `url.Values.Encode` writes, in its sorted
key order, one segment per value. -/
def encodeSegments (vs : Values) : List (List Char) :=
  (sortKeys vs).flatMap
    (fun p => p.2.map (fun w => queryEscape p.1.toList ++ '=' :: queryEscape w.toList))

/-- `url.Values.Encode`: sorted keys, escaped, `&`-joined. -/
def encodeValues (vs : Values) : List Char :=
  joinAmp (encodeSegments vs)

/-! ## `url.URL`: parsing and printing (modelled fields) -/

/-- The fields of Go's `url.URL` the generator reads or writes: everything
before the query (kept verbatim), the raw query, and the fragment. -/
structure GoURL where
  beforeQuery : String
  rawQuery : String
  frag : Option String
deriving DecidableEq

/-- Is `c` a control byte in the sense of Go's
`net/url: invalid control character in URL` check? -/
def isCtl (c : Char) : Bool :=
  c.toNat < 32 || c.toNat = 127

/-- `url.Parse`, for the behavior the generator depends on: reject URLs
with control characters, split the fragment at the first `#`, split the
raw query at the first `?` of the remainder.  Other Go parse-error modes
(scheme validation, host validation) are out of the modelled scope. -/
def urlParse (s : String) : Option GoURL :=
  if s.toList.any isCtl then none
  else
    match cutChar '#' s.toList with
    | (rest, fr) =>
      match cutChar '?' rest with
      | (pre, q) =>
        some ⟨String.mk pre, String.mk (q.getD []), fr.map String.mk⟩

/-- `URL.String` on the modelled fields: the pre-query part verbatim, `?`
plus the raw query when non-empty, `#` plus the fragment when present. -/
def urlString (u : GoURL) : String :=
  u.beforeQuery ++ (if u.rawQuery = "" then "" else "?" ++ u.rawQuery) ++
    (match u.frag with
     | none => ""
     | some f => "#" ++ f)

/-! ## The target generator (`pkg/utils.GenerateTargetURLs`) -/

/-- The literal placeholder token `\x7bpayload\x7d` checked by the
generator. -/
def placeholderTok : String := "\x7bpayload\x7d"

/-- The probe marker the scanner injects. -/
def marker : String := "rix4uni"

/-- Error taxonomy of `GenerateTargetURLs`. -/
inductive GenErr where
  | invalidURL
  | noInjectionPoint
deriving DecidableEq

/-- Replace one key's values by `[payload]` (Go's `newParams.Set`) while
every other key keeps its parsed values (Go's `newParams.Add` loop). -/
def setKey (vs : Values) (key payload : String) : Values :=
  vs.map (fun p => if p.1 = key then (p.1, [payload]) else p)

/-- One candidate URL of the query fan-out: the parsed URL rebuilt with the
re-encoded query in which `key` carries the payload. -/
def buildTarget (u : GoURL) (vs : Values) (payload key : String) : String :=
  urlString { u with rawQuery := String.mk (encodeValues (setKey vs key payload)) }

/-- `utils.GenerateTargetURLs`.  `order` stands for the iteration order of
Go's `for key := range queryParams`, which the language leaves unspecified;
it is meaningful when it enumerates each distinct parsed key exactly once,
and theorems quantify over all such enumerations. -/
def GenerateTargetURLs (inputURL payload : String) (order : List String) :
    Except GenErr (List String) :=
  if goContains inputURL placeholderTok then
    .ok [goReplaceAll inputURL placeholderTok payload]
  else
    match urlParse inputURL with
    | none => .error .invalidURL
    | some u =>
      let qp := parseQueryValues u.rawQuery
      if qp.isEmpty then .error .noInjectionPoint
      else .ok (order.map (fun key => buildTarget u qp payload key))

/-! ## The reflection classifier -/

/-- The fixed special-character alphabet probed by the scanner. -/
def specialChars : List String :=
  ["'", "\"", "<", ">", "(", ")", "`", "\x7b", "\x7d", "/", "\\", ";"]

/-- The static table of known HTML-entity encodings. -/
def conversions (c : String) : Option String :=
  if c = "'" then some "&#039;"
  else if c = "\"" then some "&quot;"
  else if c = "<" then some "&lt;"
  else if c = ">" then some "&gt;"
  else none

/-- The three probe verdicts. -/
inductive Verdict where
  | allowed
  | blocked
  | converted
deriving DecidableEq

/-- The per-character classification of `checkSpecialChars`: the body
containing `marker+char` is allowed; otherwise, a defined encoded form
contained as `marker+encodedForm` is converted; otherwise blocked. -/
def classify (body mk ch : String) : Verdict :=
  if goContains body (mk ++ ch) then .allowed
  else
    match conversions ch with
    | some conv => if goContains body (mk ++ conv) then .converted else .blocked
    | none => .blocked

/-- The string the scanner records for a converted character
(`fmt.Sprintf("%s ➔ %s", char, conv)`); for a character with no table
entry the branch is unreachable and the bare character is returned. -/
def convEntry (ch : String) : String :=
  match conversions ch with
  | some conv => ch ++ " ➔ " ++ conv
  | none => ch

/-! ## The scanner pipeline (`pkg/scanner`) -/

/-- The scan options the pipeline reads (`scanner.Options`, restricted to
the fields the modelled control flow consults). -/
structure ScanOpts where
  skipSpecialChar : Bool
  jsonOutput : Bool
  noColor : Bool
  verbose : Bool
deriving DecidableEq

/-- The network, abstracted: a static fetch and a DOM render, each a
partial function from URL to response body (`none` models an error
return, including a timeout). -/
structure NetEnv where
  fetchStatic : String → Option String
  renderDOM : String → Option String

/-- The two fetch channels of the engine. -/
inductive Chan where
  | static
  | dom
deriving DecidableEq

/-- An emitted JSON record, after `printJSON` has filled the defaults: the
three arrays are total lists (never null) and the count map always holds
exactly the keys `allowed`, `blocked`, `converted`, modelled as three
fields. -/
structure JSONRecord where
  processing : String
  baseurl : String
  reflected : Bool
  allowed : List String
  blocked : List String
  converted : List String
  countAllowed : Nat
  countBlocked : Nat
  countConverted : Nat
deriving DecidableEq

/-- The Go `JSONOutput` struct as the pipeline fills it: slices and the
count map are nilable (`none` models a nil slice/map). -/
structure GoOutput where
  processing : String
  baseurl : String
  reflected : Bool
  allowed : Option (List String)
  blocked : Option (List String)
  converted : Option (List String)
  count : Option (Nat × Nat × Nat)
deriving DecidableEq

/-- One observable output: a printed line or an emitted JSON record. -/
inductive OutEvent where
  | msg (s : String)
  | record (r : JSONRecord)
deriving DecidableEq

/-- `Scanner.printJSON`: in JSON mode, emit the record with nil slices
replaced by empty arrays and a nil count map replaced by zero counts;
outside JSON mode emit nothing. -/
def printJSON (opts : ScanOpts) (o : GoOutput) : List OutEvent :=
  if opts.jsonOutput then
    [OutEvent.record
      { processing := o.processing
        baseurl := o.baseurl
        reflected := o.reflected
        allowed := o.allowed.getD []
        blocked := o.blocked.getD []
        converted := o.converted.getD []
        countAllowed := (o.count.map (fun t => t.1)).getD 0
        countBlocked := (o.count.map (fun t => t.2.1)).getD 0
        countConverted := (o.count.map (fun t => t.2.2)).getD 0 }]
  else []

/-- Go `%v` rendering of a string slice, as in the human-readable
ALLOWED/BLOCKED/CONVERTED lines. -/
def goFmtSlice (l : List String) : String :=
  "[" ++ String.intercalate " " l ++ "]"

/-- The PROCESSING status line (`Scan`), with or without color. -/
def processingMsg (noColor : Bool) (s : String) : String :=
  if noColor then "\nPROCESSING: " ++ s ++ "\n"
  else "\n\x1b[96mPROCESSING: " ++ s ++ "\x1b[0m\n"

/-- The BASEURL status line (`processBaseURL`). -/
def baseURLMsg (noColor : Bool) (s : String) : String :=
  if noColor then "BASEURL: " ++ s ++ "\n"
  else "\x1b[94mBASEURL: " ++ s ++ "\x1b[0m\n"

/-- The REFLECTED status line (`printReflected`). -/
def reflectedMsg (noColor : Bool) (r : Bool) : String :=
  if r then
    if noColor then "REFLECTED: YES\n" else "\x1b[92mREFLECTED: YES\x1b[0m\n"
  else
    if noColor then "REFLECTED: NO\n" else "\x1b[91mREFLECTED: NO\x1b[0m\n"

/-- The human-readable classification summary lines printed at the end of
`checkSpecialChars`. -/
def resultMsgs (noColor : Bool) (a b c : List String) : List OutEvent :=
  if noColor then
    [OutEvent.msg ("ALLOWED: " ++ goFmtSlice a ++ "\n"),
     OutEvent.msg ("BLOCKED: " ++ goFmtSlice b ++ "\n"),
     OutEvent.msg ("CONVERTED: " ++ goFmtSlice c ++ "\n")]
  else
    [OutEvent.msg ("\x1b[32mALLOWED: " ++ goFmtSlice a ++ "\x1b[0m\n"),
     OutEvent.msg ("\x1b[31mBLOCKED: " ++ goFmtSlice b ++ "\x1b[0m\n"),
     OutEvent.msg ("\x1b[33mCONVERTED: " ++ goFmtSlice c ++ "\x1b[0m\n")]

/-- The text of a generator error (`fmt.Errorf` texts in
`GenerateTargetURLs`; the cause wrapped into `invalid URL: %w` is
elided). -/
def genErrMsg : GenErr → String
  | .invalidURL => "invalid URL"
  | .noInjectionPoint => "no injection points found"

/-- A verbose-only error line; Go appends the error value, which the model
elides. -/
def verboseErr (opts : ScanOpts) (s : String) : List OutEvent :=
  if opts.verbose then [OutEvent.msg s] else []

/-- The channel the probe loop uses, from the `reflectedInDOM` flag. -/
def chanOf (dom : Bool) : Chan :=
  if dom then .dom else .static

/-- Fetch through the chosen channel, as the
`if reflectedInDOM { GetDOM } else { fetch }` in `checkSpecialChars`. -/
def chanFetch (env : NetEnv) (dom : Bool) : String → Option String :=
  if dom then env.renderDOM else env.fetchStatic

/-- One character's probe attempt: regenerate targets for
`marker ++ ch`, keep only the first (`testURLs[0]`), fetch it through the
locked-in channel.  `none`: generation failed or produced nothing (no
fetch happens); `some (t, none)`: the fetch of `t` was attempted and
failed; `some (t, some body)`: the fetch succeeded. -/
def probeOne (env : NetEnv) (ord : String → List String) (inputURL : String)
    (dom : Bool) (ch : String) : Option (String × Option String) :=
  match GenerateTargetURLs inputURL (marker ++ ch) (ord (marker ++ ch)) with
  | .error _ => none
  | .ok [] => none
  | .ok (t :: _) => some (t, chanFetch env dom t)

/-- The three classification lists and the trace of attempted probe
fetches (channel and URL of each). -/
structure ProbeResult where
  allowed : List String
  blocked : List String
  converted : List String
  trace : List (Chan × String)
deriving DecidableEq

/-- The probe loop of `checkSpecialChars` over a list of characters: a
failed generation or fetch skips the character (it lands in no list), a
successful fetch classifies it into exactly one list.  The verbose
CHECKING lines are elided from the event model (the trace records the same
URLs). -/
def runProbes (env : NetEnv) (ord : String → List String) (inputURL : String)
    (dom : Bool) : List String → ProbeResult
  | [] => ⟨[], [], [], []⟩
  | ch :: rest =>
    let r := runProbes env ord inputURL dom rest
    match probeOne env ord inputURL dom ch with
    | none => r
    | some (t, none) => { r with trace := (chanOf dom, t) :: r.trace }
    | some (t, some body) =>
      match classify body marker ch with
      | .allowed =>
        { r with allowed := ch :: r.allowed, trace := (chanOf dom, t) :: r.trace }
      | .converted =>
        { r with converted := convEntry ch :: r.converted,
                 trace := (chanOf dom, t) :: r.trace }
      | .blocked =>
        { r with blocked := ch :: r.blocked, trace := (chanOf dom, t) :: r.trace }

/-- `Scanner.checkSpecialChars`, run over the fixed alphabet. -/
def checkSpecialChars (env : NetEnv) (ord : String → List String)
    (inputURL : String) (dom : Bool) : ProbeResult :=
  runProbes env ord inputURL dom specialChars

/-- The events and probe trace of one candidate URL. -/
structure BaseResult where
  events : List OutEvent
  probeTrace : List (Chan × String)
deriving DecidableEq

/-- `Scanner.processBaseURL`: static detection, DOM fallback, then either
the probe phase or the NOT-REFLECTED record; fetch/render errors at the
detection stage abort only this candidate. -/
def processBaseURL (opts : ScanOpts) (env : NetEnv) (ord : String → List String)
    (inputURL baseURL : String) : BaseResult :=
  let hdr := if opts.jsonOutput then [] else [OutEvent.msg (baseURLMsg opts.noColor baseURL)]
  match env.fetchStatic baseURL with
  | none => ⟨hdr ++ verboseErr opts "Error fetching base URL", []⟩
  | some body0 =>
    let detected : Option (String × Bool) :=
      if goContains body0 marker then some (body0, false)
      else
        match env.renderDOM baseURL with
        | none => none
        | some body1 => some (body1, goContains body1 marker)
    match detected with
    | none => ⟨hdr ++ verboseErr opts "Error fetching DOM", []⟩
    | some (body, dom) =>
      if goContains body marker then
        let o0 : GoOutput := ⟨inputURL, baseURL, true, none, none, none, none⟩
        let refl := if opts.jsonOutput then [] else [OutEvent.msg (reflectedMsg opts.noColor true)]
        if opts.skipSpecialChar then
          ⟨hdr ++ refl ++ printJSON opts o0, []⟩
        else
          let pr := checkSpecialChars env ord inputURL dom
          let o1 : GoOutput :=
            { o0 with
                allowed := some pr.allowed
                blocked := some pr.blocked
                converted := some pr.converted
                count := some (pr.allowed.length, pr.blocked.length, pr.converted.length) }
          let human :=
            if opts.jsonOutput then []
            else resultMsgs opts.noColor pr.allowed pr.blocked pr.converted
          ⟨hdr ++ refl ++ human ++ printJSON opts o1, pr.trace⟩
      else
        let o0 : GoOutput := ⟨inputURL, baseURL, false, none, none, none, none⟩
        let refl := if opts.jsonOutput then [] else [OutEvent.msg (reflectedMsg opts.noColor false)]
        ⟨hdr ++ refl ++ printJSON opts o0, []⟩

/-- `Scanner.Scan`: the PROCESSING line, base-target generation (a failure
is verbose-logged and the URL is skipped), then each candidate in turn. -/
def Scan (opts : ScanOpts) (env : NetEnv) (ord : String → List String)
    (inputURL : String) : BaseResult :=
  let hdr := if opts.jsonOutput then [] else [OutEvent.msg (processingMsg opts.noColor inputURL)]
  match GenerateTargetURLs inputURL marker (ord marker) with
  | .error e =>
    ⟨hdr ++ verboseErr opts ("Error generating target URLs: " ++ genErrMsg e), []⟩
  | .ok bus =>
    bus.foldl
      (fun acc b =>
        let r := processBaseURL opts env ord inputURL b
        ⟨acc.events ++ r.events, acc.probeTrace ++ r.probeTrace⟩)
      ⟨hdr, []⟩

/-- The JSON records among a list of events. -/
def recordsOf (evs : List OutEvent) : List JSONRecord :=
  evs.filterMap (fun e => match e with
    | .record r => some r
    | .msg _ => none)

/-- The per-line outputs of a whole run, sequentially composed (the
cross-line interleaving of the worker pool is modelled separately by
`PoolStep`). -/
def runAll (opts : ScanOpts) (env : NetEnv) (ord : String → List String)
    (lines : List String) : List OutEvent :=
  lines.flatMap (fun l => (Scan opts env ord l).events)

/-! ## Deadlines (claim C6) -/

/-- The deadline, in seconds, the static fetcher installs for each request:
`http.Client{ Timeout: time.Duration(timeout) * time.Second }`, fed from
the configured per-request timeout. -/
def fetchClientTimeoutSeconds (configuredTimeout : Nat) : Nat :=
  configuredTimeout

/-- The deadline the scanner's `DOMScanner.GetDOM` installs for each render:
`context.WithTimeout(s.ctx, 30*time.Second)` — a fixed 30 seconds; the
`timeout` handed to `NewDOMScanner` is never consulted. -/
def renderNavDeadlineSeconds (_configuredTimeout : Nat) : Nat :=
  30

/-- The per-render deadline of the legacy `DOMScanner.GetDOM` (the
flat `main` package): `chromedp.Run(s.ctx, ...)` runs on the session
context with no `WithTimeout` at all, and the network-idle debounce timer
is reset by every network event, so no deadline exists. -/
def legacyRenderDeadlineSeconds (_configuredTimeout : Nat) : Option Nat :=
  none

/-! ## The worker pool (`main`) -/

/-- The state of the worker pool: the unread part of the input queue, what
each of the `c` workers is currently scanning (one URL at most, `none` when
idle), and the completed URLs in completion order. -/
structure PoolState (c : Nat) where
  pending : List String
  running : Fin c → Option String
  done : List String

/-- The initial state: all input queued, all workers idle. -/
def initPool (c : Nat) (urls : List String) : PoolState c :=
  ⟨urls, fun _ => none, []⟩

/-- The transitions of the pool, abstracting `for url := range jobs
{ s.Scan(url) }` under `c` goroutines: an idle worker takes the next queued
URL; a busy worker finishes its whole scan and becomes idle.  A busy
worker cannot take (its loop is inside `s.Scan`), which is exactly the
"runs to completion before taking the next item" discipline. -/
inductive PoolStep (c : Nat) : PoolState c → PoolState c → Prop where
  | take (s : PoolState c) (i : Fin c) (u : String) (rest : List String) :
      s.running i = none → s.pending = u :: rest →
      PoolStep c s ⟨rest, Function.update s.running i (some u), s.done⟩
  | finish (s : PoolState c) (i : Fin c) (u : String) :
      s.running i = some u →
      PoolStep c s ⟨s.pending, Function.update s.running i none, u :: s.done⟩

/-- Reachability of a pool state from the initial state. -/
def PoolReach (c : Nat) (urls : List String) (s : PoolState c) : Prop :=
  Relation.ReflTransGen (PoolStep c) (initPool c urls) s

/-- The URLs currently being scanned, one slot per busy worker. -/
def inFlight {c : Nat} (s : PoolState c) : List String :=
  (List.finRange c).filterMap (fun i => s.running i)

/-- Number of busy workers. -/
def busyCount {c : Nat} (s : PoolState c) : Nat :=
  (inFlight s).length

/-! ## Claim C3: the classification is an exhaustive three-way verdict -/

/-- Claim C3: for every response body, marker, and character, `classify`
yields exactly one of the three verdicts: the body containing
`marker+character` yields allowed; otherwise, if an encoded form is defined
for the character and the body contains `marker+encodedForm`, it yields
converted; otherwise it yields blocked.  A character with no entry in the
encoding table is never classified converted.  (Exhaustiveness and mutual
exclusion hold because `classify` is a total function into the three-valued
`Verdict`; the equivalences below pin each verdict to its condition.) -/
theorem classify_trichotomy (body mk ch : String) :
    (classify body mk ch = Verdict.allowed ↔ goContains body (mk ++ ch) = true) ∧
    (classify body mk ch = Verdict.converted ↔
      goContains body (mk ++ ch) = false ∧
        ∃ conv, conversions ch = some conv ∧ goContains body (mk ++ conv) = true) ∧
    (classify body mk ch = Verdict.blocked ↔
      goContains body (mk ++ ch) = false ∧
        ∀ conv, conversions ch = some conv → goContains body (mk ++ conv) = false) ∧
    (conversions ch = none → classify body mk ch ≠ Verdict.converted) := by
  unfold classify
  cases h : conversions ch with
  | none =>
    by_cases h1 : goContains body (mk ++ ch) = true
    · simp [h1]
    · simp only [Bool.not_eq_true] at h1
      simp [h1]
  | some conv =>
    by_cases h1 : goContains body (mk ++ ch) = true
    · simp [h1]
    · simp only [Bool.not_eq_true] at h1
      by_cases h2 : goContains body (mk ++ conv) = true
      · simp [h1, h2]
      · simp only [Bool.not_eq_true] at h2
        simp [h1, h2]

/-- Witness for C3 at a concrete input: `(` has no entry in the conversion
table, so it is never classified converted. -/
theorem classify_trichotomy_witness :
    classify "zz rix4uni&lt; zz" "rix4uni" "(" ≠ Verdict.converted :=
  (classify_trichotomy "zz rix4uni&lt; zz" "rix4uni" "(").2.2.2 (by decide)

/-! ## Claim C2: placeholder handling produces exactly one target -/

/-- Claim C2: for every input URL containing the literal placeholder token,
the generator produces exactly one candidate, obtained by replacing every
occurrence of the token by the payload; since the hypothesis allows the
URL to also carry query parameters, the placeholder branch takes
precedence over query fan-out. -/
theorem placeholder_single_target (inputURL payload : String) (order : List String)
    (h : goContains inputURL placeholderTok = true) :
    GenerateTargetURLs inputURL payload order =
      Except.ok [goReplaceAll inputURL placeholderTok payload] ∧
    ∀ l, GenerateTargetURLs inputURL payload order = Except.ok l → l.length = 1 := by
  refine ⟨by simp [GenerateTargetURLs, h], ?_⟩
  intro l hl
  simp [GenerateTargetURLs, h] at hl
  simp [← hl]

/-- Witness for C2: a URL carrying both a query parameter and the
placeholder still produces exactly one target, with the placeholder
substituted and the query untouched. -/
theorem placeholder_single_target_witness :
    goContains "http://t/p?a=1&b=\x7bpayload\x7d" placeholderTok = true ∧
    GenerateTargetURLs "http://t/p?a=1&b=\x7bpayload\x7d" "PAY" ["a", "b"] =
      Except.ok ["http://t/p?a=1&b=PAY"] := by
  refine ⟨by decide, ?_⟩
  have h := (placeholder_single_target "http://t/p?a=1&b=\x7bpayload\x7d" "PAY"
    ["a", "b"] (by decide)).1
  rw [h]
  rfl

/-! ## Claim C10: placeholder inputs are never parsed -/

/-- Claim C10: an input containing the placeholder token succeeds without
the URL ever being parsed (the placeholder branch returns before
`url.Parse` runs), producing exactly one candidate; consequently the
`InvalidURL` failure can only arise for placeholder-free inputs. -/
theorem placeholder_skips_parsing (inputURL payload : String) (order : List String) :
    (goContains inputURL placeholderTok = true →
      GenerateTargetURLs inputURL payload order =
        Except.ok [goReplaceAll inputURL placeholderTok payload]) ∧
    (GenerateTargetURLs inputURL payload order = Except.error GenErr.invalidURL →
      goContains inputURL placeholderTok = false ∧ urlParse inputURL = none) := by
  constructor
  · intro h
    simp [GenerateTargetURLs, h]
  · intro h
    by_cases hp : goContains inputURL placeholderTok = true
    · simp [GenerateTargetURLs, hp] at h
    · simp only [Bool.not_eq_true] at hp
      refine ⟨hp, ?_⟩
      cases hu : urlParse inputURL with
      | none => rfl
      | some u =>
        simp [GenerateTargetURLs, hp, hu] at h
        split at h <;> simp_all

/-- Witness for C10: a URL that is malformed in Go's sense (it contains a
control character, so `url.Parse` rejects it) is still accepted when it
carries the placeholder, yielding exactly one candidate. -/
theorem placeholder_skips_parsing_witness :
    urlParse "http://x/\x7bpayload\x7d\x00" = none ∧
    GenerateTargetURLs "http://x/\x7bpayload\x7d\x00" "P" [] =
      Except.ok ["http://x/P\x00"] := by
  refine ⟨by decide, ?_⟩
  have h := (placeholder_skips_parsing "http://x/\x7bpayload\x7d\x00" "P" []).1 (by decide)
  rw [h]
  rfl

/-! ## Claim C6: per-operation deadlines -/

/-- Claim C6 (code bug): the static fetcher's per-request deadline is the
configured timeout, but the scanner's render deadline is a fixed 30
seconds no matter what timeout is configured (`NewDOMScanner` receives the
timeout and never consults it), and the legacy render has no deadline at
all — at the default configuration of 15 seconds the render deadline is
not derived from the configured timeout. -/
theorem render_deadline_ignores_configured_timeout :
    fetchClientTimeoutSeconds 15 = 15 ∧
    renderNavDeadlineSeconds 15 = 30 ∧
    renderNavDeadlineSeconds 15 ≠ fetchClientTimeoutSeconds 15 ∧
    (∀ t : Nat, renderNavDeadlineSeconds t = 30) ∧
    legacyRenderDeadlineSeconds 15 = none :=
  ⟨rfl, rfl, by decide, fun _ => rfl, rfl⟩

/-! ## Probe characterization (helpers for C4, C5, C9) -/

/-- The verdict one character's probe would record, or `none` when the
generation or the fetch for that character fails. -/
def probeVerdict (env : NetEnv) (ord : String → List String) (inputURL : String)
    (dom : Bool) (ch : String) : Option Verdict :=
  match probeOne env ord inputURL dom ch with
  | none => none
  | some (_, none) => none
  | some (_, some body) => some (classify body marker ch)

/-- A converted verdict presupposes a conversion-table entry. -/
theorem classify_converted_entry {body mk ch : String}
    (h : classify body mk ch = Verdict.converted) :
    ∃ conv, conversions ch = some conv := by
  unfold classify at h
  by_cases h1 : goContains body (mk ++ ch) = true
  · simp [h1] at h
  · simp only [Bool.not_eq_true] at h1
    cases hc : conversions ch with
    | none => simp [h1, hc] at h
    | some conv => exact ⟨conv, rfl⟩

/-- The conversion table, case by case. -/
theorem conversions_cases {b conv : String} (h : conversions b = some conv) :
    (b = "'" ∧ conv = "&#039;") ∨ (b = "\"" ∧ conv = "&quot;") ∨
      (b = "<" ∧ conv = "&lt;") ∨ (b = ">" ∧ conv = "&gt;") := by
  unfold conversions at h
  split_ifs at h with h1 h2 h3 h4 <;> simp_all

/-- The allowed list of the probe loop is exactly the characters whose
probe succeeded with an allowed verdict, in alphabet order. -/
theorem runProbes_allowed_eq (env : NetEnv) (ord : String → List String)
    (iu : String) (dom : Bool) (cs : List String) :
    (runProbes env ord iu dom cs).allowed =
      cs.filter (fun c => decide (probeVerdict env ord iu dom c = some Verdict.allowed)) := by
  induction cs with
  | nil => rfl
  | cons ch rest ih =>
    simp only [runProbes, List.filter_cons]
    cases h : probeOne env ord iu dom ch with
    | none => simp [probeVerdict, h, ih]
    | some tb =>
      obtain ⟨t, ob⟩ := tb
      cases ob with
      | none => simp [probeVerdict, h, ih]
      | some body =>
        cases hcl : classify body marker ch with
        | allowed => simp [probeVerdict, h, hcl, ih]
        | blocked => simp [probeVerdict, h, hcl, ih]
        | converted => simp [probeVerdict, h, hcl, ih]

/-- The blocked list of the probe loop is exactly the characters whose
probe succeeded with a blocked verdict, in alphabet order. -/
theorem runProbes_blocked_eq (env : NetEnv) (ord : String → List String)
    (iu : String) (dom : Bool) (cs : List String) :
    (runProbes env ord iu dom cs).blocked =
      cs.filter (fun c => decide (probeVerdict env ord iu dom c = some Verdict.blocked)) := by
  induction cs with
  | nil => rfl
  | cons ch rest ih =>
    simp only [runProbes, List.filter_cons]
    cases h : probeOne env ord iu dom ch with
    | none => simp [probeVerdict, h, ih]
    | some tb =>
      obtain ⟨t, ob⟩ := tb
      cases ob with
      | none => simp [probeVerdict, h, ih]
      | some body =>
        cases hcl : classify body marker ch with
        | allowed => simp [probeVerdict, h, hcl, ih]
        | blocked => simp [probeVerdict, h, hcl, ih]
        | converted => simp [probeVerdict, h, hcl, ih]

/-- The converted list of the probe loop is exactly the formatted entries
of the characters whose probe succeeded with a converted verdict. -/
theorem runProbes_converted_eq (env : NetEnv) (ord : String → List String)
    (iu : String) (dom : Bool) (cs : List String) :
    (runProbes env ord iu dom cs).converted =
      (cs.filter (fun c => decide (probeVerdict env ord iu dom c = some Verdict.converted))).map
        convEntry := by
  induction cs with
  | nil => rfl
  | cons ch rest ih =>
    simp only [runProbes, List.filter_cons]
    cases h : probeOne env ord iu dom ch with
    | none => simp [probeVerdict, h, ih]
    | some tb =>
      obtain ⟨t, ob⟩ := tb
      cases ob with
      | none => simp [probeVerdict, h, ih]
      | some body =>
        cases hcl : classify body marker ch with
        | allowed => simp [probeVerdict, h, hcl, ih]
        | blocked => simp [probeVerdict, h, hcl, ih]
        | converted => simp [probeVerdict, h, hcl, ih]

/-- Every attempted probe fetch in the loop goes through the channel fixed
by the `reflectedInDOM` flag. -/
theorem runProbes_trace_channel (env : NetEnv) (ord : String → List String)
    (iu : String) (dom : Bool) (cs : List String) :
    ∀ e ∈ (runProbes env ord iu dom cs).trace, e.1 = chanOf dom := by
  induction cs with
  | nil => intro e he; simp [runProbes] at he
  | cons ch rest ih =>
    intro e he
    simp only [runProbes] at he
    cases h : probeOne env ord iu dom ch with
    | none =>
      simp only [h] at he
      exact ih e he
    | some tb =>
      obtain ⟨t, ob⟩ := tb
      cases ob with
      | none =>
        simp only [h, List.mem_cons] at he
        rcases he with he | he
        · rw [he]
        · exact ih e he
      | some body =>
        cases hcl : classify body marker ch with
        | allowed =>
          simp only [h, hcl, List.mem_cons] at he
          rcases he with he | he
          · rw [he]
          · exact ih e he
        | blocked =>
          simp only [h, hcl, List.mem_cons] at he
          rcases he with he | he
          · rw [he]
          · exact ih e he
        | converted =>
          simp only [h, hcl, List.mem_cons] at he
          rcases he with he | he
          · rw [he]
          · exact ih e he

/-- A successful probe's verdict is a classification of some fetched
body. -/
theorem probeVerdict_some {env : NetEnv} {ord : String → List String}
    {iu : String} {dom : Bool} {b : String} {v : Verdict}
    (h : probeVerdict env ord iu dom b = some v) :
    ∃ body, v = classify body marker b := by
  unfold probeVerdict at h
  cases hp : probeOne env ord iu dom b with
  | none => simp [hp] at h
  | some tb =>
    obtain ⟨t, ob⟩ := tb
    cases ob with
    | none => simp [hp] at h
    | some body =>
      simp [hp] at h
      exact ⟨body, h.symm⟩

/-- Three mutually exclusive filters of one list cannot together exceed
its length. -/
theorem filter_mutex_three_length (l : List String) (p q r : String → Bool)
    (hpq : ∀ a, p a = true → q a = false)
    (hpr : ∀ a, p a = true → r a = false)
    (hqr : ∀ a, q a = true → r a = false) :
    (l.filter p).length + (l.filter q).length + (l.filter r).length ≤ l.length := by
  induction l with
  | nil => simp
  | cons a t ih =>
    cases hp : p a
    · cases hq : q a
      · cases hr : r a
        · simp only [List.filter_cons, hp, hq, hr, List.length_cons]
          simp only [Bool.false_eq_true, if_false]
          omega
        · simp only [List.filter_cons, hp, hq, hr, List.length_cons]
          simp only [Bool.false_eq_true, if_false, if_true]
          simp only [List.length_cons]
          omega
      · have hr2 := hqr a hq
        simp only [List.filter_cons, hp, hq, hr2, List.length_cons]
        simp only [Bool.false_eq_true, if_false, if_true]
        simp only [List.length_cons]
        omega
    · have hq2 := hpq a hp
      have hr2 := hpr a hp
      simp only [List.filter_cons, hp, hq2, hr2, List.length_cons]
      simp only [Bool.false_eq_true, if_false, if_true]
      simp only [List.length_cons]
      omega

/-! ## Claim C4: the probe channel is locked by the detection channel -/

/-- The channel through which reflection was detected for a candidate, as
the control flow of `processBaseURL` decides it: static when the static
body contains the marker; rendering when the static body does not but the
rendered body does; none when no reflection (or a detection-stage error)
occurs. -/
def detectedChannel (env : NetEnv) (baseURL : String) : Option Chan :=
  match env.fetchStatic baseURL with
  | none => none
  | some body0 =>
    if goContains body0 marker then some Chan.static
    else
      match env.renderDOM baseURL with
      | none => none
      | some body1 => if goContains body1 marker then some Chan.dom else none

/-- Claim C4: every probe fetch of a candidate goes through the channel
that detected its reflection — the rendering channel when only the
rendered DOM showed the marker, the static channel when the static body
did — and this choice never changes during the candidate's probe loop. -/
theorem probe_channel_locked (opts : ScanOpts) (env : NetEnv)
    (ord : String → List String) (inputURL baseURL : String) (ch : Chan)
    (h : detectedChannel env baseURL = some ch) :
    ∀ e ∈ (processBaseURL opts env ord inputURL baseURL).probeTrace, e.1 = ch := by
  intro e he
  unfold detectedChannel at h
  unfold processBaseURL at he
  cases hf : env.fetchStatic baseURL with
  | none => simp [hf] at h
  | some body0 =>
    simp only [hf] at h he
    by_cases hb : goContains body0 marker = true
    · simp only [hb, if_true] at h
      have hch : Chan.static = ch := by
        simpa using h
      simp only [hb, if_true] at he
      by_cases hs : opts.skipSpecialChar = true
      · simp [hs] at he
      · simp only [Bool.not_eq_true] at hs
        simp only [hs, Bool.false_eq_true, if_false] at he
        rw [← hch]
        exact runProbes_trace_channel env ord inputURL false specialChars e he
    · simp only [Bool.not_eq_true] at hb
      simp only [hb, Bool.false_eq_true, if_false] at h he
      cases hr : env.renderDOM baseURL with
      | none => simp [hr] at h
      | some body1 =>
        simp only [hr] at h he
        by_cases hb1 : goContains body1 marker = true
        · simp only [hb1, if_true] at h
          have hch : Chan.dom = ch := by
            simpa using h
          simp only [hb1, if_true] at he
          by_cases hs : opts.skipSpecialChar = true
          · simp [hs] at he
          · simp only [Bool.not_eq_true] at hs
            simp only [hs, Bool.false_eq_true, if_false] at he
            rw [← hch]
            exact runProbes_trace_channel env ord inputURL true specialChars e he
        · simp only [Bool.not_eq_true] at hb1
          simp [hb1] at h

/-! Test fixtures: concrete environments used by the witnesses. -/

/-- A fixed enumeration order (irrelevant for placeholder inputs). -/
def ordFix : String → List String := fun _ => []

/-- JSON-mode options with all other toggles off. -/
def optsJsonFix : ScanOpts := ⟨false, true, true, false⟩

/-- An endpoint that reflects the marker only in the rendered DOM; the
probe URL for `'` renders, every other probe render fails. -/
def envDomOnly : NetEnv where
  fetchStatic := fun u =>
    if u = "http://t/rix4uni" then some "<html>static only</html>" else none
  renderDOM := fun u =>
    if u = "http://t/rix4uni" then some "<html>rix4uni</html>"
    else if u = "http://t/rix4uni'" then some "<html>rix4uni' fine</html>"
    else none

/-- An endpoint that reflects statically and lets `'` through, encodes
`<`, strips `"`, and fails the probe fetch of every other character. -/
def envStaticMix : NetEnv where
  fetchStatic := fun u =>
    if u = "http://t/rix4uni" then some "<html>rix4uni</html>"
    else if u = "http://t/rix4uni'" then some "zz rix4uni' zz"
    else if u = "http://t/rix4uni<" then some "zz rix4uni&lt; zz"
    else if u = "http://t/rix4uni\"" then some "zz stripped zz"
    else none
  renderDOM := fun _ => none

/-- Witness for C4: a candidate reflected only in the DOM has every probe
fetch (including failed ones) on the rendering channel. -/
theorem probe_channel_locked_witness :
    detectedChannel envDomOnly "http://t/rix4uni" = some Chan.dom ∧
    ∀ e ∈ (processBaseURL optsJsonFix envDomOnly ordFix "http://t/\x7bpayload\x7d"
      "http://t/rix4uni").probeTrace, e.1 = Chan.dom :=
  ⟨by decide,
   fun e he => probe_channel_locked optsJsonFix envDomOnly ordFix
     "http://t/\x7bpayload\x7d" "http://t/rix4uni" Chan.dom (by decide) e he⟩

/-! ## Claim C5: probe failures are isolated and the sets partition -/

/-- Claim C5: a character whose probe fetch (or generation) fails is
absent from all three result sets, the remaining characters are classified
exactly as their own probes dictate (the failure aborts nothing), the
three sets are pairwise disjoint, and their sizes sum to at most the size
of the fixed alphabet. -/
theorem probe_failure_isolated (env : NetEnv) (ord : String → List String)
    (inputURL : String) (dom : Bool) (ch : String)
    (hch : ch ∈ specialChars)
    (hfail : probeVerdict env ord inputURL dom ch = none) :
    ch ∉ (checkSpecialChars env ord inputURL dom).allowed ∧
    ch ∉ (checkSpecialChars env ord inputURL dom).blocked ∧
    convEntry ch ∉ (checkSpecialChars env ord inputURL dom).converted ∧
    (∀ c, c ∈ (checkSpecialChars env ord inputURL dom).allowed ↔
      c ∈ specialChars ∧ probeVerdict env ord inputURL dom c = some Verdict.allowed) ∧
    (∀ c, c ∈ (checkSpecialChars env ord inputURL dom).blocked ↔
      c ∈ specialChars ∧ probeVerdict env ord inputURL dom c = some Verdict.blocked) ∧
    (∀ c, ¬(c ∈ (checkSpecialChars env ord inputURL dom).allowed ∧
      c ∈ (checkSpecialChars env ord inputURL dom).blocked)) ∧
    (∀ c, ¬(c ∈ (checkSpecialChars env ord inputURL dom).allowed ∧
      c ∈ (checkSpecialChars env ord inputURL dom).converted)) ∧
    (∀ c, ¬(c ∈ (checkSpecialChars env ord inputURL dom).blocked ∧
      c ∈ (checkSpecialChars env ord inputURL dom).converted)) ∧
    (checkSpecialChars env ord inputURL dom).allowed.length +
      (checkSpecialChars env ord inputURL dom).blocked.length +
      (checkSpecialChars env ord inputURL dom).converted.length ≤
      specialChars.length := by
  have hinj : ∀ a ∈ specialChars, ∀ b ∈ specialChars, convEntry a = convEntry b → a = b := by
    decide
  unfold checkSpecialChars
  rw [runProbes_allowed_eq, runProbes_blocked_eq, runProbes_converted_eq]
  refine ⟨?_, ?_, ?_, ?_, ?_, ?_, ?_, ?_, ?_⟩
  · intro hmem
    rcases List.mem_filter.1 hmem with ⟨-, hp⟩
    simp [hfail] at hp
  · intro hmem
    rcases List.mem_filter.1 hmem with ⟨-, hp⟩
    simp [hfail] at hp
  · intro hmem
    rcases List.mem_map.1 hmem with ⟨b, hbmem, hbeq⟩
    rcases List.mem_filter.1 hbmem with ⟨hbs, hbp⟩
    simp only [decide_eq_true_eq] at hbp
    have hbc : b = ch := hinj b hbs ch hch hbeq
    rw [hbc, hfail] at hbp
    cases hbp
  · intro c
    simp [List.mem_filter]
  · intro c
    simp [List.mem_filter]
  · rintro c ⟨h1, h2⟩
    rcases List.mem_filter.1 h1 with ⟨-, hp1⟩
    rcases List.mem_filter.1 h2 with ⟨-, hp2⟩
    simp only [decide_eq_true_eq] at hp1 hp2
    rw [hp1] at hp2
    cases hp2
  · rintro c ⟨h1, h2⟩
    rcases List.mem_filter.1 h1 with ⟨h1s, hp1⟩
    rcases List.mem_map.1 h2 with ⟨b, hbmem, hbeq⟩
    rcases List.mem_filter.1 hbmem with ⟨hbs, hbp⟩
    simp only [decide_eq_true_eq] at hp1 hbp
    rcases probeVerdict_some hbp with ⟨body, hcl⟩
    rcases classify_converted_entry hcl.symm with ⟨conv, hconv⟩
    have hce : convEntry b = b ++ " ➔ " ++ conv := by
      unfold convEntry
      rw [hconv]
    rw [hce] at hbeq
    rcases conversions_cases hconv with ⟨hb', hc'⟩ | ⟨hb', hc'⟩ | ⟨hb', hc'⟩ | ⟨hb', hc'⟩ <;>
      (subst hb'; subst hc'; rw [← hbeq] at h1s; revert h1s; decide)
  · rintro c ⟨h1, h2⟩
    rcases List.mem_filter.1 h1 with ⟨h1s, hp1⟩
    rcases List.mem_map.1 h2 with ⟨b, hbmem, hbeq⟩
    rcases List.mem_filter.1 hbmem with ⟨hbs, hbp⟩
    simp only [decide_eq_true_eq] at hp1 hbp
    rcases probeVerdict_some hbp with ⟨body, hcl⟩
    rcases classify_converted_entry hcl.symm with ⟨conv, hconv⟩
    have hce : convEntry b = b ++ " ➔ " ++ conv := by
      unfold convEntry
      rw [hconv]
    rw [hce] at hbeq
    rcases conversions_cases hconv with ⟨hb', hc'⟩ | ⟨hb', hc'⟩ | ⟨hb', hc'⟩ | ⟨hb', hc'⟩ <;>
      (subst hb'; subst hc'; rw [← hbeq] at h1s; revert h1s; decide)
  · rw [List.length_map]
    apply filter_mutex_three_length
    · intro a hpa
      rw [decide_eq_true_eq] at hpa
      simp [hpa]
    · intro a hpa
      rw [decide_eq_true_eq] at hpa
      simp [hpa]
    · intro a hpa
      rw [decide_eq_true_eq] at hpa
      simp [hpa]

/-- Witness for C5: against a concrete endpoint where the probe of `>`
fails while `'`, `<`, `"` succeed, the failed character is absent from all
three sets. -/
theorem probe_failure_isolated_witness :
    ">" ∉ (checkSpecialChars envStaticMix ordFix "http://t/\x7bpayload\x7d" false).allowed ∧
    ">" ∉ (checkSpecialChars envStaticMix ordFix "http://t/\x7bpayload\x7d" false).blocked ∧
    convEntry ">" ∉
      (checkSpecialChars envStaticMix ordFix "http://t/\x7bpayload\x7d" false).converted :=
  have h := probe_failure_isolated envStaticMix ordFix "http://t/\x7bpayload\x7d" false ">"
    (by decide) (by decide)
  ⟨h.1, h.2.1, h.2.2.1⟩

/-! ## Claim C9: emitted JSON records are total and self-consistent -/

/-- A conditional status line holds no record. -/
theorem record_not_mem_opt_msg (b : Bool) (s : String) (r : JSONRecord) :
    OutEvent.record r ∉ (if b then ([] : List OutEvent) else [OutEvent.msg s]) := by
  split <;> simp

/-- A verbose-only error line holds no record. -/
theorem record_not_mem_verboseErr (opts : ScanOpts) (s : String) (r : JSONRecord) :
    OutEvent.record r ∉ verboseErr opts s := by
  unfold verboseErr
  split <;> simp

/-- The human-readable summary lines hold no record. -/
theorem record_not_mem_human (b nc : Bool) (a bl cv : List String) (r : JSONRecord) :
    OutEvent.record r ∉ (if b then ([] : List OutEvent) else resultMsgs nc a bl cv) := by
  split
  · simp
  · unfold resultMsgs
    split <;> simp

/-- A record found in `printJSON` output means JSON mode is on and the
record is the defaults-filled image of the Go struct. -/
theorem mem_printJSON {opts : ScanOpts} {o : GoOutput} {r : JSONRecord}
    (h : OutEvent.record r ∈ printJSON opts o) :
    opts.jsonOutput = true ∧
    r.allowed = o.allowed.getD [] ∧ r.blocked = o.blocked.getD [] ∧
    r.converted = o.converted.getD [] ∧
    r.countAllowed = (o.count.map (fun t => t.1)).getD 0 ∧
    r.countBlocked = (o.count.map (fun t => t.2.1)).getD 0 ∧
    r.countConverted = (o.count.map (fun t => t.2.2)).getD 0 := by
  by_cases hj : opts.jsonOutput = true
  · simp only [printJSON, hj, if_true, List.mem_singleton] at h
    rw [OutEvent.record.injEq] at h
    subst h
    exact ⟨hj, rfl, rfl, rfl, rfl, rfl, rfl⟩
  · simp only [Bool.not_eq_true] at hj
    simp [printJSON, hj] at h

/-- Claim C9: every JSON record emitted for a processed candidate is
emitted in JSON mode with its three arrays present as total lists (the
model's record type has no null arrays, because `printJSON` replaces nil
by the empty array) and each count field equal to the length of the
corresponding array. -/
theorem json_record_counts (opts : ScanOpts) (env : NetEnv)
    (ord : String → List String) (inputURL baseURL : String) (r : JSONRecord)
    (hr : OutEvent.record r ∈ (processBaseURL opts env ord inputURL baseURL).events) :
    opts.jsonOutput = true ∧
    r.countAllowed = r.allowed.length ∧
    r.countBlocked = r.blocked.length ∧
    r.countConverted = r.converted.length := by
  unfold processBaseURL at hr
  cases hf : env.fetchStatic baseURL with
  | none =>
    simp only [hf] at hr
    rcases List.mem_append.1 hr with h | h
    · exact absurd h (record_not_mem_opt_msg _ _ _)
    · exact absurd h (record_not_mem_verboseErr _ _ _)
  | some body0 =>
    simp only [hf] at hr
    by_cases hb : goContains body0 marker = true
    · simp only [hb, if_true] at hr
      by_cases hs : opts.skipSpecialChar = true
      · simp only [hs, if_true] at hr
        rcases List.mem_append.1 hr with h | h
        · rcases List.mem_append.1 h with h2 | h2
          · exact absurd h2 (record_not_mem_opt_msg _ _ _)
          · exact absurd h2 (record_not_mem_opt_msg _ _ _)
        · rcases mem_printJSON h with ⟨hj, h1, h2, h3, h4, h5, h6⟩
          refine ⟨hj, ?_, ?_, ?_⟩ <;> simp [h1, h2, h3, h4, h5, h6]
      · simp only [Bool.not_eq_true] at hs
        simp only [hs, Bool.false_eq_true, if_false] at hr
        rcases List.mem_append.1 hr with h | h
        · rcases List.mem_append.1 h with h2 | h2
          · rcases List.mem_append.1 h2 with h3 | h3
            · exact absurd h3 (record_not_mem_opt_msg _ _ _)
            · exact absurd h3 (record_not_mem_opt_msg _ _ _)
          · exact absurd h2 (record_not_mem_human _ _ _ _ _ _)
        · rcases mem_printJSON h with ⟨hj, h1, h2, h3, h4, h5, h6⟩
          refine ⟨hj, ?_, ?_, ?_⟩ <;> simp [h1, h2, h3, h4, h5, h6]
    · simp only [Bool.not_eq_true] at hb
      simp only [hb, Bool.false_eq_true, if_false] at hr
      cases hd : env.renderDOM baseURL with
      | none =>
        simp only [hd] at hr
        rcases List.mem_append.1 hr with h | h
        · exact absurd h (record_not_mem_opt_msg _ _ _)
        · exact absurd h (record_not_mem_verboseErr _ _ _)
      | some body1 =>
        simp only [hd] at hr
        by_cases hb1 : goContains body1 marker = true
        · simp only [hb1, if_true] at hr
          by_cases hs : opts.skipSpecialChar = true
          · simp only [hs, if_true] at hr
            rcases List.mem_append.1 hr with h | h
            · rcases List.mem_append.1 h with h2 | h2
              · exact absurd h2 (record_not_mem_opt_msg _ _ _)
              · exact absurd h2 (record_not_mem_opt_msg _ _ _)
            · rcases mem_printJSON h with ⟨hj, h1, h2, h3, h4, h5, h6⟩
              refine ⟨hj, ?_, ?_, ?_⟩ <;> simp [h1, h2, h3, h4, h5, h6]
          · simp only [Bool.not_eq_true] at hs
            simp only [hs, Bool.false_eq_true, if_false] at hr
            rcases List.mem_append.1 hr with h | h
            · rcases List.mem_append.1 h with h2 | h2
              · rcases List.mem_append.1 h2 with h3 | h3
                · exact absurd h3 (record_not_mem_opt_msg _ _ _)
                · exact absurd h3 (record_not_mem_opt_msg _ _ _)
              · exact absurd h2 (record_not_mem_human _ _ _ _ _ _)
            · rcases mem_printJSON h with ⟨hj, h1, h2, h3, h4, h5, h6⟩
              refine ⟨hj, ?_, ?_, ?_⟩ <;> simp [h1, h2, h3, h4, h5, h6]
        · simp only [Bool.not_eq_true] at hb1
          simp only [hb1, Bool.false_eq_true, if_false] at hr
          rcases List.mem_append.1 hr with h | h
          · rcases List.mem_append.1 h with h2 | h2
            · exact absurd h2 (record_not_mem_opt_msg _ _ _)
            · exact absurd h2 (record_not_mem_opt_msg _ _ _)
          · rcases mem_printJSON h with ⟨hj, h1, h2, h3, h4, h5, h6⟩
            refine ⟨hj, ?_, ?_, ?_⟩ <;> simp [h1, h2, h3, h4, h5, h6]

/-- The record the fixture endpoint produces. -/
def recFix : JSONRecord :=
  ⟨"http://t/\x7bpayload\x7d", "http://t/rix4uni", true,
    ["'"], ["\""], ["< ➔ &lt;"], 1, 1, 1⟩

/-- Witness for C9: the record emitted for the fixture endpoint has its
count fields equal to the array lengths. -/
theorem json_record_counts_witness :
    optsJsonFix.jsonOutput = true ∧
    recFix.countAllowed = recFix.allowed.length ∧
    recFix.countBlocked = recFix.blocked.length ∧
    recFix.countConverted = recFix.converted.length :=
  json_record_counts optsJsonFix envStaticMix ordFix "http://t/\x7bpayload\x7d"
    "http://t/rix4uni" recFix (by decide)

/-! ## Claim C8: blank input lines -/

/-- A blank line reaches the generator and fails with `NoInjectionPoint`
(the empty string has no placeholder and parses to a URL with no query
parameters); the enumeration order is irrelevant on the error path. -/
theorem generate_blank_fails (payload : String) (order : List String) :
    GenerateTargetURLs "" payload order = Except.error GenErr.noInjectionPoint :=
  rfl

/-- Claim C8 counterexample: a blank line is not ignored — in
human-readable mode `Scan` prints a PROCESSING status line for it, so it
produces visible output (and in verbose mode also an error line). -/
theorem blank_line_not_silent :
    (Scan ⟨false, false, true, false⟩ envStaticMix ordFix "").events =
      [OutEvent.msg "\nPROCESSING: \n"] ∧
    (Scan ⟨false, false, true, false⟩ envStaticMix ordFix "").events ≠ [] :=
  ⟨rfl, by decide⟩

/-- Claim C8 amended: blank lines are read and dispatched like any other
line rather than filtered; a blank line yields no output record and no
probe fetch in any mode, is fully silent in JSON mode without verbosity,
and processing continues with the surrounding lines (in human-readable
mode it does print a PROCESSING status line, and in verbose mode an error
line, as the counterexample shows). -/
theorem blank_line_amended (opts : ScanOpts) (env : NetEnv)
    (ord : String → List String) (pre post : List String) :
    recordsOf (Scan opts env ord "").events = [] ∧
    (Scan opts env ord "").probeTrace = [] ∧
    (opts.jsonOutput = true → opts.verbose = false →
      (Scan opts env ord "").events = []) ∧
    runAll opts env ord (pre ++ "" :: post) =
      runAll opts env ord pre ++ (Scan opts env ord "").events ++
        runAll opts env ord post := by
  have hgen : GenerateTargetURLs "" marker (ord marker) =
      Except.error GenErr.noInjectionPoint := generate_blank_fails marker (ord marker)
  refine ⟨?_, ?_, ?_, ?_⟩
  · unfold Scan
    rw [hgen]
    by_cases hj : opts.jsonOutput = true <;> by_cases hv : opts.verbose = true <;>
      simp_all [recordsOf, verboseErr]
  · unfold Scan
    rw [hgen]
  · intro hj hv
    unfold Scan
    rw [hgen]
    simp [hj, verboseErr, hv]
  · unfold runAll
    simp [List.flatMap_append]

/-- Witness for C8: in JSON mode without verbosity a blank line is fully
silent and aborts nothing. -/
theorem blank_line_amended_witness :
    recordsOf (Scan optsJsonFix envStaticMix ordFix "").events = [] ∧
    (Scan optsJsonFix envStaticMix ordFix "").events = [] :=
  have h := blank_line_amended optsJsonFix envStaticMix ordFix [] []
  ⟨h.1, h.2.2.1 rfl rfl⟩

/-! ## Claim C7: the worker pool -/

/-- Filling an idle slot grows the in-flight list by exactly one. -/
theorem filterMap_update_none_length {c : Nat} (f : Fin c → Option String)
    (i : Fin c) (u : String) (hf : f i = none) :
    ∀ l : List (Fin c), l.Nodup → i ∈ l →
      (l.filterMap (fun j => Function.update f i (some u) j)).length =
        (l.filterMap (fun j => f j)).length + 1 := by
  intro l
  induction l with
  | nil => intro _ hi; cases hi
  | cons a t ih =>
    intro hl hi
    rcases List.mem_cons.1 hi with rfl | hit
    · have hnotin : i ∉ t := (List.nodup_cons.1 hl).1
      have ht : t.filterMap (fun j => Function.update f i (some u) j) =
          t.filterMap (fun j => f j) := by
        apply List.filterMap_congr
        intro x hx
        have hxi : x ≠ i := fun h => hnotin (h ▸ hx)
        simp [Function.update_noteq hxi]
      simp [List.filterMap_cons, Function.update_same, hf, ht]
    · have hai : a ≠ i := fun h => (List.nodup_cons.1 hl).1 (h ▸ hit)
      have hupd : Function.update f i (some u) a = f a := Function.update_noteq hai _ _
      have := ih (List.nodup_cons.1 hl).2 hit
      cases hfa : f a <;>
        simp [List.filterMap_cons, hupd, hfa, this]

/-- Emptying a busy slot shrinks the in-flight list by exactly one. -/
theorem filterMap_update_some_length {c : Nat} (f : Fin c → Option String)
    (i : Fin c) (u : String) (hf : f i = some u) :
    ∀ l : List (Fin c), l.Nodup → i ∈ l →
      (l.filterMap (fun j => Function.update f i none j)).length + 1 =
        (l.filterMap (fun j => f j)).length := by
  intro l
  induction l with
  | nil => intro _ hi; cases hi
  | cons a t ih =>
    intro hl hi
    rcases List.mem_cons.1 hi with rfl | hit
    · have hnotin : i ∉ t := (List.nodup_cons.1 hl).1
      have ht : t.filterMap (fun j => Function.update f i none j) =
          t.filterMap (fun j => f j) := by
        apply List.filterMap_congr
        intro x hx
        have hxi : x ≠ i := fun h => hnotin (h ▸ hx)
        simp [Function.update_noteq hxi]
      simp [List.filterMap_cons, Function.update_same, hf, ht]
    · have hai : a ≠ i := fun h => (List.nodup_cons.1 hl).1 (h ▸ hit)
      have hupd : Function.update f i none a = f a := Function.update_noteq hai _ _
      have := ih (List.nodup_cons.1 hl).2 hit
      cases hfa : f a <;>
        simp [List.filterMap_cons, hupd, hfa, ← this]

/-- Claim C7: the pool model of `main` — input URLs are consumed from the
head of a shared queue by at most `c` concurrently busy workers (`c` the
caller-supplied concurrency), no URL is lost or duplicated in the count,
a busy worker's slot can only change by completing its whole scan (it
never takes a new item while busy), and completion order is not
guaranteed: the same two-URL input reaches final states with both
completion orders. -/
theorem worker_pool_model :
    (∀ (c : Nat) (urls : List String) (s : PoolState c), PoolReach c urls s →
      busyCount s ≤ c ∧
      s.pending.length + busyCount s + s.done.length = urls.length ∧
      s.pending.IsSuffix urls) ∧
    (∀ (c : Nat) (s s' : PoolState c), PoolStep c s s' → ∀ i u, s.running i = some u →
      s'.running i = some u ∨ (s'.running i = none ∧ s'.done = u :: s.done)) ∧
    (∃ s1 s2 : PoolState 2,
      PoolReach 2 ["u1", "u2"] s1 ∧ PoolReach 2 ["u1", "u2"] s2 ∧
      s1.done = ["u1", "u2"] ∧ s2.done = ["u2", "u1"]) := by
  refine ⟨?_, ?_, ?_⟩
  · intro c urls s hs
    have hinit : busyCount (initPool c urls) = 0 := by
      unfold busyCount inFlight initPool
      simp [List.filterMap_eq_nil_iff.mpr (fun a _ => rfl)]
    induction hs with
    | refl =>
      refine ⟨?_, ?_, List.suffix_refl urls⟩
      · rw [hinit]
        exact Nat.zero_le c
      · rw [hinit]
        simp [initPool]
    | @tail b sf hab hbc ih =>
      obtain ⟨ih1, ih2, ih3⟩ := ih
      cases hbc with
      | take i u rest hidle hpend =>
        have hlen := filterMap_update_none_length b.running i u hidle
          (List.finRange c) (List.nodup_finRange c) (List.mem_finRange i)
        have hbound := List.length_filterMap_le
          (fun j => Function.update b.running i (some u) j) (List.finRange c)
        refine ⟨?_, ?_, ?_⟩
        · unfold busyCount inFlight at *
          simpa [List.length_finRange] using hbound
        · unfold busyCount inFlight at *
          rw [hpend] at ih2
          simp only [List.length_cons] at ih2
          simp only [hlen]
          omega
        · have h1 : rest.IsSuffix (u :: rest) := ⟨[u], rfl⟩
          exact h1.trans (hpend ▸ ih3)
      | finish i u hbusy =>
        have hlen := filterMap_update_some_length b.running i u hbusy
          (List.finRange c) (List.nodup_finRange c) (List.mem_finRange i)
        have hbound := List.length_filterMap_le
          (fun j => Function.update b.running i none j) (List.finRange c)
        refine ⟨?_, ?_, ?_⟩
        · unfold busyCount inFlight
          simpa [List.length_finRange] using hbound
        · unfold busyCount inFlight at *
          simp only [List.length_cons]
          simp only [← hlen] at ih2
          omega
        · exact ih3
  · intro c s s' hstep i u hu
    cases hstep with
    | take j v rest hidle hpend =>
      by_cases hij : i = j
      · rw [hij, hidle] at hu
        cases hu
      · left
        simpa [Function.update_noteq hij] using hu
    | finish j v hbusy =>
      by_cases hij : i = j
      · subst hij
        rw [hbusy] at hu
        injection hu with huv
        subst huv
        exact Or.inr ⟨by simp [Function.update_same], rfl⟩
      · exact Or.inl (by simpa [Function.update_noteq hij] using hu)
  · have r0 : PoolReach 2 ["u1", "u2"] (initPool 2 ["u1", "u2"]) :=
      Relation.ReflTransGen.refl
    have r1 := Relation.ReflTransGen.tail r0
      (PoolStep.take (initPool 2 ["u1", "u2"]) 0 "u1" ["u2"] rfl rfl)
    have r2 := Relation.ReflTransGen.tail r1
      (PoolStep.take _ 1 "u2" [] (by decide) rfl)
    -- order one: worker 0 finishes first, then worker 1
    have r3a := Relation.ReflTransGen.tail r2 (PoolStep.finish _ 0 "u1" (by decide))
    have r4a := Relation.ReflTransGen.tail r3a (PoolStep.finish _ 1 "u2" (by decide))
    -- order two: worker 1 finishes first, then worker 0
    have r3b := Relation.ReflTransGen.tail r2 (PoolStep.finish _ 1 "u2" (by decide))
    have r4b := Relation.ReflTransGen.tail r3b (PoolStep.finish _ 0 "u1" (by decide))
    exact ⟨_, _, r4b, r4a, rfl, rfl⟩

/-- Witness for C7: the pool invariants applied to a concrete reachable
state, and a concrete step obeying the run-to-completion rule. -/
theorem worker_pool_model_witness :
    busyCount (initPool 3 ["a", "b"]) ≤ 3 ∧
    (initPool 3 ["a", "b"]).pending.length + busyCount (initPool 3 ["a", "b"]) +
      (initPool 3 ["a", "b"]).done.length = 2 :=
  have h := (worker_pool_model.1 3 ["a", "b"] (initPool 3 ["a", "b"])
    Relation.ReflTransGen.refl)
  ⟨h.1, h.2.1⟩

/-! ## Claim C1: query fan-out — escaping round-trip machinery -/

instance {ε α : Type} [DecidableEq ε] [DecidableEq α] : DecidableEq (Except ε α)
  | Except.error x, Except.error y =>
    if h : x = y then isTrue (congrArg Except.error h)
    else isFalse (fun hc => h (by cases hc; rfl))
  | Except.error _, Except.ok _ => isFalse (fun hc => Except.noConfusion hc)
  | Except.ok _, Except.error _ => isFalse (fun hc => Except.noConfusion hc)
  | Except.ok x, Except.ok y =>
    if h : x = y then isTrue (congrArg Except.ok h)
    else isFalse (fun hc => h (by cases hc; rfl))

/-- All characters of a list are byte-sized (below 256); the regime in
which the character-level model of Go's byte-level escaping is exact. -/
def byteLikeL (l : List Char) : Bool :=
  l.all (fun c => c.toNat < 256)

/-- All characters of a string are byte-sized. -/
def byteLike (s : String) : Bool :=
  byteLikeL s.toList

theorem byteLikeL_iff (l : List Char) :
    byteLikeL l = true ↔ ∀ c ∈ l, c.toNat < 256 := by
  simp [byteLikeL, List.all_eq_true]

/-- Hex digits round-trip through the encoder's digit table. -/
theorem hexVal_upperHexDigit {n : Nat} (h : n < 16) :
    hexVal (upperHexDigit n) = some n := by
  have hall : ∀ m : Fin 16, hexVal (upperHexDigit (m : Nat)) = some (m : Nat) := by decide
  exact hall ⟨n, h⟩

/-- An unreserved character is none of the structural characters of a
query string, and not a control character. -/
theorem isUnreserved_ne {c : Char} (h : isUnreserved c = true) :
    c ≠ '%' ∧ c ≠ '+' ∧ c ≠ '&' ∧ c ≠ ';' ∧ c ≠ '=' ∧ c ≠ '#' ∧ c ≠ '?' ∧
      c ≠ ' ' ∧ isCtl c = false := by
  simp only [isUnreserved, Bool.or_eq_true, Bool.and_eq_true, decide_eq_true_eq] at h
  refine ⟨?_, ?_, ?_, ?_, ?_, ?_, ?_, ?_, ?_⟩
  · intro heq
    have h2 : c.toNat = 37 := by rw [heq]; decide
    omega
  · intro heq
    have h2 : c.toNat = 43 := by rw [heq]; decide
    omega
  · intro heq
    have h2 : c.toNat = 38 := by rw [heq]; decide
    omega
  · intro heq
    have h2 : c.toNat = 59 := by rw [heq]; decide
    omega
  · intro heq
    have h2 : c.toNat = 61 := by rw [heq]; decide
    omega
  · intro heq
    have h2 : c.toNat = 35 := by rw [heq]; decide
    omega
  · intro heq
    have h2 : c.toNat = 63 := by rw [heq]; decide
    omega
  · intro heq
    have h2 : c.toNat = 32 := by rw [heq]; decide
    omega
  · simp only [isCtl, Bool.or_eq_false_iff, decide_eq_false_iff_not]
    omega

/-- One unescaping step on an ordinary character. -/
theorem unescapeL_cons_ne (c : Char) (h1 : c ≠ '%') (h2 : c ≠ '+') (t : List Char) :
    unescapeL (c :: t) = (unescapeL t).map (fun r => c :: r) := by
  cases t with
  | nil => simp [unescapeL, h1, h2]
  | cons a t2 =>
    cases t2 with
    | nil => simp [unescapeL, h1, h2]
    | cons b t3 => simp [unescapeL, h1, h2]

/-- One unescaping step on a full percent escape. -/
theorem unescapeL_cons_pct (a b : Char) (t : List Char) :
    unescapeL ('%' :: a :: b :: t) =
      (match hexVal a, hexVal b with
       | some x, some y => (unescapeL t).map (fun r => Char.ofNat (16 * x + y) :: r)
       | _, _ => none) := by
  simp [unescapeL]

/-- Unescaping undoes the escaping of one byte-sized character at the
head of a stream. -/
theorem unescapeL_escapeChar (c : Char) (hc : c.toNat < 256) (t : List Char) :
    unescapeL (escapeChar c ++ t) = (unescapeL t).map (fun r => c :: r) := by
  unfold escapeChar
  by_cases hu : isUnreserved c = true
  · simp only [hu, if_true]
    obtain ⟨h1, h2, -⟩ := isUnreserved_ne hu
    simp [unescapeL_cons_ne c h1 h2]
  · simp only [Bool.not_eq_true] at hu
    simp only [hu, Bool.false_eq_true, if_false]
    by_cases hsp : c = ' '
    · simp only [hsp, if_true]
      have h1 : ('+' : Char) ≠ '%' := by decide
      cases t with
      | nil => simp [unescapeL]
      | cons a t2 =>
        cases t2 with
        | nil => simp [unescapeL]
        | cons b t3 => simp [unescapeL]
    · simp only [hsp, if_false, hc, if_true]
      have hdiv : c.toNat / 16 < 16 := by omega
      have hmod : c.toNat % 16 < 16 := by omega
      simp only [List.cons_append, List.nil_append]
      rw [unescapeL_cons_pct]
      simp only [hexVal_upperHexDigit hdiv, hexVal_upperHexDigit hmod]
      rw [Nat.div_add_mod c.toNat 16, Char.ofNat_toNat]

/-- Unescaping undoes query-escaping on byte-sized strings. -/
theorem unescapeL_queryEscape :
    ∀ s : List Char, (∀ c ∈ s, c.toNat < 256) →
      unescapeL (queryEscape s) = some s := by
  intro s
  induction s with
  | nil => intro _; rfl
  | cons c rest ih =>
    intro hs
    have hc := hs c (List.mem_cons_self c rest)
    have hrest : ∀ x ∈ rest, x.toNat < 256 :=
      fun x hx => hs x (List.mem_cons_of_mem c hx)
    unfold queryEscape at ih ⊢
    rw [List.flatMap_cons, unescapeL_escapeChar c hc, ih hrest]
    rfl

/-- The hex digit characters carry none of the structural characters. -/
theorem upperHexDigit_safe :
    ∀ m : Fin 16, upperHexDigit (m : Nat) ≠ '&' ∧ upperHexDigit (m : Nat) ≠ ';' ∧
      upperHexDigit (m : Nat) ≠ '=' ∧ upperHexDigit (m : Nat) ≠ '#' ∧
      upperHexDigit (m : Nat) ≠ '?' ∧ isCtl (upperHexDigit (m : Nat)) = false := by
  decide

/-- Escaped output never contains a separator (`&`, `;`, `=`), a `#`, a
`?`, or a control character. -/
theorem escapeChar_safe (c : Char) :
    ∀ d ∈ escapeChar c, d ≠ '&' ∧ d ≠ ';' ∧ d ≠ '=' ∧ d ≠ '#' ∧ d ≠ '?' ∧
      isCtl d = false := by
  intro d hd
  unfold escapeChar at hd
  by_cases hu : isUnreserved c = true
  · simp only [hu, if_true, List.mem_singleton] at hd
    subst hd
    obtain ⟨-, -, h3, h4, h5, h6, h7, -, h9⟩ := isUnreserved_ne hu
    exact ⟨h3, h4, h5, h6, h7, h9⟩
  · simp only [Bool.not_eq_true] at hu
    simp only [hu, Bool.false_eq_true, if_false] at hd
    by_cases hsp : c = ' '
    · simp only [hsp, if_true, List.mem_singleton] at hd
      subst hd
      exact ⟨by decide, by decide, by decide, by decide, by decide, by decide⟩
    · simp only [hsp, if_false] at hd
      by_cases h256 : c.toNat < 256
      · simp only [h256, if_true, List.mem_cons, List.mem_singleton,
          List.not_mem_nil, or_false] at hd
        rcases hd with hd | hd | hd
        · subst hd
          exact ⟨by decide, by decide, by decide, by decide, by decide, by decide⟩
        · subst hd
          have hdiv : c.toNat / 16 < 16 := by omega
          exact upperHexDigit_safe ⟨c.toNat / 16, hdiv⟩
        · subst hd
          have hmod : c.toNat % 16 < 16 := by omega
          exact upperHexDigit_safe ⟨c.toNat % 16, hmod⟩
      · simp only [h256, if_false, List.mem_singleton] at hd
        subst hd
        simp only [Nat.not_lt] at h256
        refine ⟨?_, ?_, ?_, ?_, ?_, ?_⟩
        · intro heq
          have h2 : d.toNat = 38 := by rw [heq]; decide
          omega
        · intro heq
          have h2 : d.toNat = 59 := by rw [heq]; decide
          omega
        · intro heq
          have h2 : d.toNat = 61 := by rw [heq]; decide
          omega
        · intro heq
          have h2 : d.toNat = 35 := by rw [heq]; decide
          omega
        · intro heq
          have h2 : d.toNat = 63 := by rw [heq]; decide
          omega
        · simp only [isCtl, Bool.or_eq_false_iff, decide_eq_false_iff_not]
          omega

/-- Query-escaped strings contain no separators and no control
characters. -/
theorem queryEscape_safe (s : List Char) :
    ∀ d ∈ queryEscape s, d ≠ '&' ∧ d ≠ ';' ∧ d ≠ '=' ∧ d ≠ '#' ∧ d ≠ '?' ∧
      isCtl d = false := by
  intro d hd
  unfold queryEscape at hd
  rcases List.mem_flatMap.1 hd with ⟨c, -, hdc⟩
  exact escapeChar_safe c d hdc

/-- `splitChar` never yields an empty segment list. -/
theorem splitChar_ne_nil (sep : Char) : ∀ l : List Char, splitChar sep l ≠ [] := by
  intro l
  induction l with
  | nil => simp [splitChar]
  | cons c t ih =>
    unfold splitChar
    cases h : splitChar sep t with
    | nil => exact absurd h ih
    | cons a as =>
      by_cases hc : c = sep <;> simp [hc]

/-- A separator-free list is one whole segment. -/
theorem splitChar_no_sep (sep : Char) :
    ∀ seg : List Char, sep ∉ seg → splitChar sep seg = [seg] := by
  intro seg
  induction seg with
  | nil => intro _; rfl
  | cons c t ih =>
    intro h
    have hct : sep ∉ t := fun hx => h (List.mem_cons_of_mem c hx)
    have hcs : c ≠ sep := fun hx => h (hx ▸ List.mem_cons_self c t)
    unfold splitChar
    rw [ih hct]
    simp [hcs]

/-- One step of `splitChar`. -/
theorem splitChar_cons (sep c : Char) (t : List Char) :
    splitChar sep (c :: t) =
      match splitChar sep t with
      | [] => [[]]
      | seg :: segs => if c = sep then [] :: seg :: segs else (c :: seg) :: segs := rfl

/-- Splitting after a separator-free first segment. -/
theorem splitChar_append_sep (sep : Char) :
    ∀ (seg rest : List Char), sep ∉ seg →
      splitChar sep (seg ++ sep :: rest) = seg :: splitChar sep rest := by
  intro seg
  induction seg with
  | nil =>
    intro rest _
    rw [List.nil_append, splitChar_cons]
    cases h : splitChar sep rest with
    | nil => exact absurd h (splitChar_ne_nil sep rest)
    | cons a as => simp
  | cons c t ih =>
    intro rest h
    have hct : sep ∉ t := fun hx => h (List.mem_cons_of_mem c hx)
    have hcs : c ≠ sep := fun hx => h (hx ▸ List.mem_cons_self c t)
    have hrec := ih rest hct
    rw [List.cons_append, splitChar_cons, hrec]
    simp [hcs]

/-- Splitting undoes `&`-joining of separator-free segments. -/
theorem splitChar_joinAmp :
    ∀ l : List (List Char), l ≠ [] → (∀ seg ∈ l, '&' ∉ seg) →
      splitChar '&' (joinAmp l) = l := by
  intro l
  induction l with
  | nil => intro h _; exact absurd rfl h
  | cons s rest ih =>
    intro _ hsep
    have hs : '&' ∉ s := hsep s (List.mem_cons_self s rest)
    cases rest with
    | nil => simpa [joinAmp] using splitChar_no_sep '&' s hs
    | cons s2 rest2 =>
      have hj : joinAmp (s :: s2 :: rest2) = s ++ '&' :: joinAmp (s2 :: rest2) := rfl
      rw [hj, splitChar_append_sep '&' s (joinAmp (s2 :: rest2)) hs,
        ih (by simp) (fun seg hseg => hsep seg (List.mem_cons_of_mem s hseg))]

/-- Scanning up to the `=` of a built `key=value` segment. -/
theorem takeWhile_eq_split :
    ∀ a : List Char, '=' ∉ a → ∀ b : List Char,
      (a ++ '=' :: b).takeWhile (fun c => c ≠ '=') = a ∧
      (a ++ '=' :: b).dropWhile (fun c => c ≠ '=') = '=' :: b := by
  intro a
  induction a with
  | nil =>
    intro _ b
    constructor
    · simp [List.takeWhile_cons]
    · simp [List.dropWhile_cons]
  | cons c t ih =>
    intro h b
    have hct : '=' ∉ t := fun hx => h (List.mem_cons_of_mem c hx)
    have hcs : c ≠ '=' := fun hx => h (hx ▸ List.mem_cons_self c t)
    obtain ⟨ih1, ih2⟩ := ih hct b
    have hcond : (decide (c ≠ '=')) = true := by simp [hcs]
    constructor
    · simp only [List.cons_append, List.takeWhile_cons, hcond, if_true, ih1]
    · simp only [List.cons_append, List.dropWhile_cons, hcond, if_true, ih2]

/-- Parsing one built `key=value` segment recovers the key and value. -/
theorem parsePair_built (k v : List Char)
    (hk : ∀ c ∈ k, c.toNat < 256) (hv : ∀ c ∈ v, c.toNat < 256) :
    parsePair (queryEscape k ++ '=' :: queryEscape v) = some (k, v) := by
  have hsemi : (';' : Char) ∉ queryEscape k ++ '=' :: queryEscape v := by
    intro hmem
    rcases List.mem_append.1 hmem with hm | hm
    · exact (queryEscape_safe k ';' hm).2.1 rfl
    · rcases List.mem_cons.1 hm with he | hm2
      · exact absurd he (by decide)
      · exact (queryEscape_safe v ';' hm2).2.1 rfl
  have hne : queryEscape k ++ '=' :: queryEscape v ≠ [] := by simp
  have hknoeq : '=' ∉ queryEscape k := fun hm => (queryEscape_safe k '=' hm).2.2.1 rfl
  obtain ⟨htk, hdk⟩ := takeWhile_eq_split (queryEscape k) hknoeq (queryEscape v)
  unfold parsePair
  rw [if_neg hsemi, if_neg hne]
  simp only [htk, hdk, List.drop_succ_cons, List.drop_zero]
  rw [unescapeL_queryEscape k hk, unescapeL_queryEscape v hv]

/-- Keys after `addValue`: the old keys, plus the new key if it was
absent. -/
theorem mem_keysOf_addValue (k v : String) :
    ∀ (vs : Values) (x : String),
      x ∈ keysOf (addValue vs k v) ↔ x ∈ keysOf vs ∨ x = k := by
  intro vs
  induction vs with
  | nil => intro x; simp [addValue, keysOf]
  | cons p rest ih =>
    intro x
    obtain ⟨k2, ws⟩ := p
    by_cases h : k2 = k
    · subst h
      simp [addValue, keysOf]
      tauto
    · simp only [addValue, h, if_false, keysOf, List.map_cons, List.mem_cons]
      rw [show (rest.map (fun p => p.1)) = keysOf rest from rfl]
      rw [show ((addValue rest k v).map (fun p => p.1)) = keysOf (addValue rest k v) from rfl]
      rw [ih x]
      tauto

/-- Adding a fresh key appends it at the end. -/
theorem addValue_fresh (k v : String) :
    ∀ vs : Values, k ∉ keysOf vs → addValue vs k v = vs ++ [(k, [v])] := by
  intro vs
  induction vs with
  | nil => intro _; rfl
  | cons p rest ih =>
    intro h
    obtain ⟨k2, ws⟩ := p
    simp only [keysOf, List.map_cons, List.mem_cons, not_or] at h
    obtain ⟨hk2, hrest⟩ := h
    have h1 : k2 ≠ k := fun he => hk2 he.symm
    simp only [addValue, h1, if_false, List.cons_append]
    rw [ih hrest]

/-- Adding to the key sitting at the end extends its value list. -/
theorem addValue_snoc (k v : String) :
    ∀ (pre : Values) (ws : List String), k ∉ keysOf pre →
      addValue (pre ++ [(k, ws)]) k v = pre ++ [(k, ws ++ [v])] := by
  intro pre
  induction pre with
  | nil => intro ws _; simp [addValue]
  | cons p rest ih =>
    intro ws h
    obtain ⟨k2, ws2⟩ := p
    simp only [keysOf, List.map_cons, List.mem_cons, not_or] at h
    obtain ⟨hk2, hrest⟩ := h
    have h1 : k2 ≠ k := fun he => hk2 he.symm
    simp only [List.cons_append, addValue, h1, if_false]
    exact congrArg (List.cons (k2, ws2)) (ih ws hrest)

/-- Parsing a built segment and adding it is exactly `addValue`. -/
theorem qstep_built (acc : Values) (k w : String)
    (hk : ∀ c ∈ k.toList, c.toNat < 256) (hw : ∀ c ∈ w.toList, c.toNat < 256) :
    qstep acc (queryEscape k.toList ++ '=' :: queryEscape w.toList) =
      addValue acc k w := by
  unfold qstep
  rw [parsePair_built k.toList w.toList hk hw]
  rfl

/-- Folding the remaining values of one key extends that key's list. -/
theorem foldl_qstep_key (k : String) (hk : ∀ c ∈ k.toList, c.toNat < 256) :
    ∀ ws : List String, (∀ w ∈ ws, ∀ c ∈ w.toList, c.toNat < 256) →
      ∀ (pre : Values) (ws0 : List String), k ∉ keysOf pre →
        List.foldl qstep (pre ++ [(k, ws0)])
          (ws.map (fun w => queryEscape k.toList ++ '=' :: queryEscape w.toList)) =
          pre ++ [(k, ws0 ++ ws)] := by
  intro ws
  induction ws with
  | nil =>
    intro _ pre ws0 _
    simp
  | cons w ws' ih =>
    intro hws pre ws0 hpre
    have hw := hws w (List.mem_cons_self w ws')
    have hws' : ∀ x ∈ ws', ∀ c ∈ x.toList, c.toNat < 256 :=
      fun x hx => hws x (List.mem_cons_of_mem w hx)
    simp only [List.map_cons, List.foldl_cons]
    rw [qstep_built _ k w hk hw, addValue_snoc k w pre ws0 hpre,
      ih hws' pre (ws0 ++ [w]) hpre]
    simp

/-- Folding the parse step over the built segments of an association list
with distinct keys and non-empty value lists reproduces the list. -/
theorem foldl_qstep_flat :
    ∀ todo : Values, (keysOf todo).Nodup →
      (∀ p ∈ todo, p.2 ≠ []) →
      (∀ p ∈ todo, (∀ c ∈ p.1.toList, c.toNat < 256) ∧
        ∀ w ∈ p.2, ∀ c ∈ w.toList, c.toNat < 256) →
      ∀ pre : Values, (∀ p ∈ todo, p.1 ∉ keysOf pre) →
        List.foldl qstep pre
          (todo.flatMap (fun p =>
            p.2.map (fun w => queryEscape p.1.toList ++ '=' :: queryEscape w.toList))) =
          pre ++ todo := by
  intro todo
  induction todo with
  | nil =>
    intro _ _ _ pre _
    simp
  | cons p rest ih =>
    obtain ⟨k, ws⟩ := p
    intro hnod hne hbl pre hdisj
    have hkbl := (hbl (k, ws) (List.mem_cons_self _ _)).1
    have hwbl := (hbl (k, ws) (List.mem_cons_self _ _)).2
    have hkpre : k ∉ keysOf pre := hdisj (k, ws) (List.mem_cons_self _ _)
    cases ws with
    | nil => exact absurd rfl (hne (k, []) (List.mem_cons_self _ _))
    | cons w0 ws' =>
      have hw0 := hwbl w0 (List.mem_cons_self w0 ws')
      have hws' : ∀ x ∈ ws', ∀ c ∈ x.toList, c.toNat < 256 :=
        fun x hx => hwbl x (List.mem_cons_of_mem w0 hx)
      simp only [List.flatMap_cons, List.foldl_append, List.map_cons, List.foldl_cons]
      rw [qstep_built _ k w0 hkbl hw0, addValue_fresh k w0 pre hkpre,
        foldl_qstep_key k hkbl ws' hws' pre [w0] hkpre]
      simp only [List.singleton_append]
      have hnod' : (keysOf rest).Nodup := by
        simp only [keysOf, List.map_cons, List.nodup_cons] at hnod
        exact hnod.2
      have hkrest : k ∉ keysOf rest := by
        simp only [keysOf, List.map_cons, List.nodup_cons] at hnod
        exact hnod.1
      have hdisj' : ∀ q ∈ rest, q.1 ∉ keysOf (pre ++ [(k, w0 :: ws')]) := by
        intro q hq hmem
        simp only [keysOf, List.map_append, List.mem_append, List.map_cons,
          List.mem_cons] at hmem
        rcases hmem with hmem | hmem
        · exact hdisj q (List.mem_cons_of_mem _ hq) hmem
        · rcases hmem with hmem | hmem
          · exact hkrest (hmem ▸ List.mem_map_of_mem (fun p => p.1) hq)
          · exact (List.not_mem_nil q.1) hmem
      rw [ih hnod' (fun q hq => hne q (List.mem_cons_of_mem _ hq))
        (fun q hq => hbl q (List.mem_cons_of_mem _ hq))
        (pre ++ [(k, w0 :: ws')]) hdisj']
      simp

/-- Sorted insertion is a permutation of consing. -/
theorem insertByKey_perm (p : String × List String) :
    ∀ vs : Values, (insertByKey p vs).Perm (p :: vs) := by
  intro vs
  induction vs with
  | nil => exact List.Perm.refl _
  | cons q rest ih =>
    unfold insertByKey
    by_cases h : lexLt q.1.toList p.1.toList = true
    · rw [if_pos h]
      exact (ih.cons q).trans (List.Perm.swap p q rest)
    · rw [if_neg h]

/-- `sortKeys` permutes its input. -/
theorem sortKeys_perm : ∀ vs : Values, (sortKeys vs).Perm vs := by
  intro vs
  induction vs with
  | nil => exact List.Perm.refl _
  | cons p rest ih =>
    exact (insertByKey_perm p (sortKeys rest)).trans (ih.cons p)

/-- Map lookup is invariant under permutation when keys are distinct. -/
theorem getValues_perm {vs ws : Values} (h : vs.Perm ws)
    (hnd : (keysOf vs).Nodup) : ∀ k, getValues vs k = getValues ws k := by
  induction h with
  | nil => intro k; rfl
  | @cons x l1 l2 h2 ih =>
    intro k
    obtain ⟨k2, ws2⟩ := x
    simp only [getValues]
    by_cases he : k2 = k
    · simp [he]
    · simp only [he, if_false]
      have hnd2 : (keysOf l1).Nodup := by
        simp only [keysOf, List.map_cons, List.nodup_cons] at hnd
        exact hnd.2
      exact ih hnd2 k
  | swap x y l =>
    intro k
    obtain ⟨k1, ws1⟩ := x
    obtain ⟨k2, ws2⟩ := y
    have hne : k2 ≠ k1 := by
      simp only [keysOf, List.map_cons, List.nodup_cons, List.mem_cons] at hnd
      exact fun he => hnd.1 (Or.inl he)
    simp only [getValues]
    by_cases h1 : k2 = k
    · subst h1
      have hne2 : k1 ≠ k2 := Ne.symm hne
      simp [hne2]
    · by_cases h2 : k1 = k
      · simp [h1, h2]
      · simp [h1, h2]
  | @trans l1 l2 l3 h1 h2 ih1 ih2 =>
    intro k
    have hmid : (keysOf l2).Nodup := by
      have hp := (h1.map (fun p => p.1)).nodup_iff
      exact hp.mp hnd
    rw [ih1 hnd k, ih2 hmid k]

/-- Built segments never contain the `&` separator. -/
theorem encodeSegments_sep_free (vs : Values) :
    ∀ seg ∈ encodeSegments vs, '&' ∉ seg := by
  intro seg hseg hmem
  unfold encodeSegments at hseg
  rcases List.mem_flatMap.1 hseg with ⟨p, hp, hseg2⟩
  rcases List.mem_map.1 hseg2 with ⟨w, hw, rfl⟩
  rcases List.mem_append.1 hmem with hm | hm
  · exact (queryEscape_safe _ '&' hm).1 rfl
  · rcases List.mem_cons.1 hm with he | hm2
    · exact absurd he (by decide)
    · exact (queryEscape_safe _ '&' hm2).1 rfl

/-- A non-empty map with non-empty value lists yields at least one
segment. -/
theorem encodeSegments_ne_nil (vs : Values) (hvs : vs ≠ [])
    (hne : ∀ p ∈ vs, p.2 ≠ []) : encodeSegments vs ≠ [] := by
  unfold encodeSegments
  cases hs : sortKeys vs with
  | nil =>
    have hp := sortKeys_perm vs
    rw [hs] at hp
    exact absurd (List.nil_perm.mp hp) hvs
  | cons p rest =>
    obtain ⟨k, ws⟩ := p
    have hpw : (k, ws) ∈ sortKeys vs := by
      rw [hs]
      exact List.mem_cons_self _ _
    have hpv : (k, ws) ∈ vs := (sortKeys_perm vs).subset hpw
    have hwne := hne _ hpv
    cases ws with
    | nil => exact absurd rfl hwne
    | cons w0 ws' => simp

/-- Parsing the encoded form of an association list with distinct keys,
non-empty value lists and byte-sized contents reproduces the list in
sorted key order. -/
theorem parse_encodeValues (vs : Values) (hnod : (keysOf vs).Nodup)
    (hne : ∀ p ∈ vs, p.2 ≠ [])
    (hbl : ∀ p ∈ vs, (∀ c ∈ p.1.toList, c.toNat < 256) ∧
      ∀ w ∈ p.2, ∀ c ∈ w.toList, c.toNat < 256) :
    parseQueryValues (String.mk (encodeValues vs)) = sortKeys vs := by
  by_cases hvs : vs = []
  · subst hvs
    rfl
  · unfold parseQueryValues encodeValues
    have htl : (String.mk (joinAmp (encodeSegments vs))).toList =
        joinAmp (encodeSegments vs) := rfl
    rw [htl, splitChar_joinAmp (encodeSegments vs)
      (encodeSegments_ne_nil vs hvs hne) (encodeSegments_sep_free vs)]
    have hsp := sortKeys_perm vs
    have hnod2 : (keysOf (sortKeys vs)).Nodup := by
      have hmp := hsp.map (fun p : String × List String => p.1)
      unfold keysOf at hnod ⊢
      exact hmp.nodup_iff.mpr hnod
    have hne2 : ∀ p ∈ sortKeys vs, p.2 ≠ [] := fun p hp => hne p (hsp.subset hp)
    have hbl2 : ∀ p ∈ sortKeys vs, (∀ c ∈ p.1.toList, c.toNat < 256) ∧
        ∀ w ∈ p.2, ∀ c ∈ w.toList, c.toNat < 256 :=
      fun p hp => hbl p (hsp.subset hp)
    have hfold := foldl_qstep_flat (sortKeys vs) hnod2 hne2 hbl2 []
      (fun p _ => List.not_mem_nil p.1)
    unfold encodeSegments
    simpa using hfold

/-- A hex digit's value is below 16. -/
theorem hexVal_lt {c : Char} {x : Nat} (h : hexVal c = some x) : x < 16 := by
  unfold hexVal at h
  split_ifs at h with h1 h2 h3 <;> simp_all <;> omega

/-- `Char.ofNat` and `Char.toNat` cancel on byte values. -/
theorem toNat_ofNat_lt {m : Nat} (h : m < 256) : (Char.ofNat m).toNat = m := by
  have hall : ∀ v : Fin 256, (Char.ofNat (v : Nat)).toNat = (v : Nat) := by decide
  exact hall ⟨m, h⟩


/-- One unescaping step on a `+`. -/
theorem unescapeL_cons_plus (t : List Char) :
    unescapeL ('+' :: t) = (unescapeL t).map (fun r => ' ' :: r) := by
  cases t with
  | nil => simp [unescapeL]
  | cons a t2 =>
    cases t2 with
    | nil => simp [unescapeL]
    | cons b t3 => simp [unescapeL]

/-- Unescaping byte-sized input yields byte-sized output. -/
theorem unescapeL_chars :
    ∀ (n : Nat) (l : List Char), l.length ≤ n → ∀ res, unescapeL l = some res →
      (∀ c ∈ l, c.toNat < 256) → ∀ c ∈ res, c.toNat < 256 := by
  intro n
  induction n with
  | zero =>
    intro l hl res hres hbl c hc
    rw [List.length_eq_zero.mp (Nat.le_zero.mp hl)] at hres
    simp only [unescapeL, Option.some.injEq] at hres
    rw [← hres] at hc
    cases hc
  | succ n ih =>
    intro l hl res hres hbl c hc
    cases l with
    | nil =>
      simp only [unescapeL, Option.some.injEq] at hres
      rw [← hres] at hc
      cases hc
    | cons c0 rest =>
      by_cases h0 : c0 = '%'
      · subst h0
        cases rest with
        | nil => simp [unescapeL] at hres
        | cons a rest1 =>
          cases rest1 with
          | nil => simp [unescapeL] at hres
          | cons b rest2 =>
            rw [unescapeL_cons_pct] at hres
            cases ha : hexVal a with
            | none => rw [ha] at hres; simp at hres
            | some x =>
              cases hb : hexVal b with
              | none => rw [ha, hb] at hres; simp at hres
              | some y =>
                rw [ha, hb] at hres
                simp only [Option.map_eq_some'] at hres
                obtain ⟨res2, hres2, hreseq⟩ := hres
                have hx := hexVal_lt ha
                have hy := hexVal_lt hb
                have hvlt : 16 * x + y < 256 := by omega
                rw [← hreseq] at hc
                rcases List.mem_cons.1 hc with hce | hcm
                · rw [hce, toNat_ofNat_lt hvlt]
                  omega
                · have hlen : rest2.length ≤ n := by
                    simp only [List.length_cons] at hl
                    omega
                  exact ih rest2 hlen res2 hres2
                    (fun d hd => hbl d (by simp [hd])) c hcm
      · by_cases h1 : c0 = '+'
        · subst h1
          rw [unescapeL_cons_plus] at hres
          simp only [Option.map_eq_some'] at hres
          obtain ⟨res2, hres2, hreseq⟩ := hres
          rw [← hreseq] at hc
          rcases List.mem_cons.1 hc with hce | hcm
          · rw [hce]
            decide
          · have hlen : rest.length ≤ n := by
              simp only [List.length_cons] at hl
              omega
            exact ih rest hlen res2 hres2
              (fun d hd => hbl d (List.mem_cons_of_mem _ hd)) c hcm
        · rw [unescapeL_cons_ne c0 h0 h1] at hres
          simp only [Option.map_eq_some'] at hres
          obtain ⟨res2, hres2, hreseq⟩ := hres
          rw [← hreseq] at hc
          rcases List.mem_cons.1 hc with hce | hcm
          · rw [hce]
            exact hbl c0 (List.mem_cons_self _ _)
          · have hlen : rest.length ≤ n := by
              simp only [List.length_cons] at hl
              omega
            exact ih rest hlen res2 hres2
              (fun d hd => hbl d (List.mem_cons_of_mem _ hd)) c hcm

/-- Every character of every segment comes from the split input. -/
theorem splitChar_chars (sep : Char) :
    ∀ (l seg : List Char), seg ∈ splitChar sep l → ∀ c ∈ seg, c ∈ l := by
  intro l
  induction l with
  | nil =>
    intro seg hseg c hc
    simp only [splitChar, List.mem_singleton] at hseg
    rw [hseg] at hc
    cases hc
  | cons a t ih =>
    intro seg hseg c hc
    rw [splitChar_cons] at hseg
    cases h : splitChar sep t with
    | nil => exact absurd h (splitChar_ne_nil sep t)
    | cons s0 ss =>
      rw [h] at hseg
      by_cases hasep : a = sep
      · simp only [hasep, if_true] at hseg
        rcases List.mem_cons.1 hseg with he | hm
        · rw [he] at hc
          cases hc
        · have : seg ∈ splitChar sep t := by rw [h]; exact hm
          exact List.mem_cons_of_mem a (ih seg this c hc)
      · simp only [hasep, if_false] at hseg
        rcases List.mem_cons.1 hseg with he | hm
        · rw [he] at hc
          rcases List.mem_cons.1 hc with hce | hcm
          · rw [hce]
            exact List.mem_cons_self a t
          · have hs0 : s0 ∈ splitChar sep t := by rw [h]; exact List.mem_cons_self s0 ss
            exact List.mem_cons_of_mem a (ih s0 hs0 c hcm)
        · have : seg ∈ splitChar sep t := by rw [h]; exact List.mem_cons_of_mem s0 hm
          exact List.mem_cons_of_mem a (ih seg this c hc)

/-- A parsed pair of a byte-sized segment is byte-sized. -/
theorem parsePair_chars {seg k v : List Char}
    (h : parsePair seg = some (k, v)) (hbl : ∀ c ∈ seg, c.toNat < 256) :
    (∀ c ∈ k, c.toNat < 256) ∧ ∀ c ∈ v, c.toNat < 256 := by
  unfold parsePair at h
  split_ifs at h with h1 h2
  dsimp only at h
  have htk : ∀ c ∈ seg.takeWhile (fun c => c ≠ '='), c.toNat < 256 :=
    fun c hc => hbl c ((List.takeWhile_sublist _).subset hc)
  have htd : ∀ c ∈ (seg.dropWhile (fun c => c ≠ '=')).drop 1, c.toNat < 256 :=
    fun c hc => hbl c ((List.dropWhile_sublist _).subset (List.drop_subset 1 _ hc))
  cases hk : unescapeL (seg.takeWhile (fun c => c ≠ '=')) with
  | none => rw [hk] at h; simp at h
  | some k2 =>
    cases hv : unescapeL ((seg.dropWhile (fun c => c ≠ '=')).drop 1) with
    | none => rw [hk, hv] at h; simp at h
    | some v2 =>
      rw [hk, hv] at h
      simp only [Option.some.injEq, Prod.mk.injEq] at h
      obtain ⟨hke, hve⟩ := h
      subst hke
      subst hve
      exact ⟨unescapeL_chars _ _ (Nat.le_refl _) _ hk htk,
        unescapeL_chars _ _ (Nat.le_refl _) _ hv htd⟩

/-- `addValue` on a matching head extends that entry. -/
theorem addValue_cons_eq (k v : String) (ws : List String) (rest : Values) :
    addValue ((k, ws) :: rest) k v = (k, ws ++ [v]) :: rest := by
  simp [addValue]

/-- `addValue` on a different head recurses past it. -/
theorem addValue_cons_ne {k2 k : String} (h : k2 ≠ k) (v : String)
    (ws : List String) (rest : Values) :
    addValue ((k2, ws) :: rest) k v = (k2, ws) :: addValue rest k v := by
  simp [addValue, h]

/-- `addValue` keeps keys distinct. -/
theorem addValue_nodup (k v : String) :
    ∀ vs : Values, (keysOf vs).Nodup → (keysOf (addValue vs k v)).Nodup := by
  intro vs
  induction vs with
  | nil =>
    intro _
    simp [addValue, keysOf]
  | cons p rest ih =>
    intro h
    obtain ⟨k2, ws⟩ := p
    simp only [keysOf, List.map_cons, List.nodup_cons] at h
    by_cases he : k2 = k
    · subst he
      rw [addValue_cons_eq]
      simp only [keysOf, List.map_cons, List.nodup_cons]
      exact h
    · rw [addValue_cons_ne he]
      simp only [keysOf, List.map_cons, List.nodup_cons]
      constructor
      · intro hmem
        rcases (mem_keysOf_addValue k v rest k2).1 hmem with hm | hm
        · exact h.1 hm
        · exact he hm
      · exact ih h.2

/-- `addValue` keeps value lists non-empty. -/
theorem addValue_values_ne (k v : String) :
    ∀ vs : Values, (∀ p ∈ vs, p.2 ≠ []) → ∀ p ∈ addValue vs k v, p.2 ≠ [] := by
  intro vs
  induction vs with
  | nil =>
    intro _ p hp
    simp only [addValue, List.mem_singleton] at hp
    rw [hp]
    simp
  | cons q rest ih =>
    intro h p hp
    obtain ⟨k2, ws⟩ := q
    by_cases he : k2 = k
    · subst he
      rw [addValue_cons_eq] at hp
      rcases List.mem_cons.1 hp with hp | hp
      · rw [hp]
        simp
      · exact h p (List.mem_cons_of_mem _ hp)
    · rw [addValue_cons_ne he] at hp
      rcases List.mem_cons.1 hp with hp | hp
      · rw [hp]
        exact h (k2, ws) (List.mem_cons_self _ _)
      · exact ih (fun q hq => h q (List.mem_cons_of_mem _ hq)) p hp

/-- `addValue` preserves any per-key and per-value predicate that the new
pair satisfies. -/
theorem addValue_pred (P : String → Prop) (Q : String → Prop) (k v : String)
    (hPk : P k) (hQv : Q v) :
    ∀ vs : Values, (∀ p ∈ vs, P p.1 ∧ ∀ w ∈ p.2, Q w) →
      ∀ p ∈ addValue vs k v, P p.1 ∧ ∀ w ∈ p.2, Q w := by
  intro vs
  induction vs with
  | nil =>
    intro _ p hp
    simp only [addValue, List.mem_singleton] at hp
    rw [hp]
    refine ⟨hPk, ?_⟩
    intro w hw
    simp only [List.mem_singleton] at hw
    rw [hw]
    exact hQv
  | cons q rest ih =>
    intro h p hp
    obtain ⟨k2, ws⟩ := q
    by_cases he : k2 = k
    · subst he
      rw [addValue_cons_eq] at hp
      rcases List.mem_cons.1 hp with hp | hp
      · rw [hp]
        refine ⟨(h (k2, ws) (List.mem_cons_self _ _)).1, ?_⟩
        intro w hw
        rcases List.mem_append.1 hw with hw | hw
        · exact (h (k2, ws) (List.mem_cons_self _ _)).2 w hw
        · simp only [List.mem_singleton] at hw
          rw [hw]
          exact hQv
      · exact h p (List.mem_cons_of_mem _ hp)
    · rw [addValue_cons_ne he] at hp
      rcases List.mem_cons.1 hp with hp | hp
      · rw [hp]
        exact h (k2, ws) (List.mem_cons_self _ _)
      · exact ih (fun q hq => h q (List.mem_cons_of_mem _ hq)) p hp

/-- The parsed query map has distinct keys. -/
theorem parseQueryValues_nodup (raw : String) :
    (keysOf (parseQueryValues raw)).Nodup := by
  unfold parseQueryValues
  have hgen : ∀ (segs : List (List Char)) (acc : Values), (keysOf acc).Nodup →
      (keysOf (List.foldl qstep acc segs)).Nodup := by
    intro segs
    induction segs with
    | nil => intro acc h; exact h
    | cons sg rest ih =>
      intro acc h
      simp only [List.foldl_cons]
      apply ih
      unfold qstep
      cases hp : parsePair sg with
      | none => exact h
      | some kv => exact addValue_nodup _ _ acc h
  exact hgen _ [] (by simp [keysOf])

/-- The parsed query map has non-empty value lists. -/
theorem parseQueryValues_values_ne (raw : String) :
    ∀ p ∈ parseQueryValues raw, p.2 ≠ [] := by
  unfold parseQueryValues
  have hgen : ∀ (segs : List (List Char)) (acc : Values), (∀ p ∈ acc, p.2 ≠ []) →
      ∀ p ∈ List.foldl qstep acc segs, p.2 ≠ [] := by
    intro segs
    induction segs with
    | nil => intro acc h; exact h
    | cons sg rest ih =>
      intro acc h
      simp only [List.foldl_cons]
      apply ih
      unfold qstep
      cases hp : parsePair sg with
      | none => exact h
      | some kv => exact addValue_values_ne _ _ acc h
  exact hgen _ [] (by simp)

/-- The parsed query map of a byte-sized raw query is byte-sized. -/
theorem parseQueryValues_chars (raw : String)
    (hraw : ∀ c ∈ raw.toList, c.toNat < 256) :
    ∀ p ∈ parseQueryValues raw,
      (∀ c ∈ p.1.toList, c.toNat < 256) ∧ ∀ w ∈ p.2, ∀ c ∈ w.toList, c.toNat < 256 := by
  unfold parseQueryValues
  have hsegs : ∀ seg ∈ splitChar '&' raw.toList, ∀ c ∈ seg, c.toNat < 256 :=
    fun seg hseg c hc => hraw c (splitChar_chars '&' raw.toList seg hseg c hc)
  have hgen : ∀ (segs : List (List Char)),
      (∀ seg ∈ segs, ∀ c ∈ seg, c.toNat < 256) →
      ∀ acc : Values,
        (∀ p ∈ acc, (∀ c ∈ p.1.toList, c.toNat < 256) ∧
          ∀ w ∈ p.2, ∀ c ∈ w.toList, c.toNat < 256) →
      ∀ p ∈ List.foldl qstep acc segs,
        (∀ c ∈ p.1.toList, c.toNat < 256) ∧
          ∀ w ∈ p.2, ∀ c ∈ w.toList, c.toNat < 256 := by
    intro segs
    induction segs with
    | nil => intro _ acc h; exact h
    | cons sg rest ih =>
      intro hbl acc h
      simp only [List.foldl_cons]
      apply ih (fun seg hseg => hbl seg (List.mem_cons_of_mem _ hseg))
      unfold qstep
      cases hp : parsePair sg with
      | none => exact h
      | some kv =>
        obtain ⟨k2, v2⟩ := kv
        obtain ⟨hk2, hv2⟩ := parsePair_chars hp (hbl sg (List.mem_cons_self _ _))
        exact addValue_pred (fun x => ∀ c ∈ x.toList, c.toNat < 256)
          (fun x => ∀ c ∈ x.toList, c.toNat < 256) _ _ hk2 hv2 acc h
  exact hgen _ hsegs [] (by simp)

/-- The prefix returned by `cutChar` never contains the separator. -/
theorem cutChar_fst_not_sep (sep : Char) :
    ∀ l : List Char, sep ∉ (cutChar sep l).1 := by
  intro l
  induction l with
  | nil => simp [cutChar]
  | cons c t ih =>
    by_cases h : c = sep
    · simp [cutChar, h]
    · simp only [cutChar, h, if_false]
      intro hmem
      rcases List.mem_cons.1 hmem with he | hm
      · exact h he.symm
      · exact ih hm

/-- Characters of `cutChar`'s prefix come from the input. -/
theorem cutChar_fst_subset (sep : Char) :
    ∀ l : List Char, ∀ c ∈ (cutChar sep l).1, c ∈ l := by
  intro l
  induction l with
  | nil => simp [cutChar]
  | cons a t ih =>
    intro c hc
    by_cases h : a = sep
    · simp [cutChar, h] at hc
    · simp only [cutChar, h, if_false] at hc
      rcases List.mem_cons.1 hc with he | hm
      · rw [he]
        exact List.mem_cons_self a t
      · exact List.mem_cons_of_mem a (ih c hm)

/-- Characters of `cutChar`'s suffix come from the input. -/
theorem cutChar_snd_subset (sep : Char) :
    ∀ (l r : List Char), (cutChar sep l).2 = some r → ∀ c ∈ r, c ∈ l := by
  intro l
  induction l with
  | nil => intro r hr; simp [cutChar] at hr
  | cons a t ih =>
    intro r hr c hc
    by_cases h : a = sep
    · simp only [cutChar] at hr
      rw [if_pos h] at hr
      have ht : t = r := Option.some.inj hr
      rw [← ht] at hc
      exact List.mem_cons_of_mem a hc
    · rcases hcut : cutChar sep t with ⟨pre, post⟩
      simp only [cutChar, h, if_false, hcut] at hr
      have : (cutChar sep t).2 = some r := by rw [hcut]; exact hr
      exact List.mem_cons_of_mem a (ih r this c hc)

/-- `cutChar` on separator-free input returns it whole. -/
theorem cutChar_no_sep (sep : Char) :
    ∀ l : List Char, sep ∉ l → cutChar sep l = (l, none) := by
  intro l
  induction l with
  | nil => intro _; rfl
  | cons c t ih =>
    intro h
    have hct : sep ∉ t := fun hx => h (List.mem_cons_of_mem c hx)
    have hcs : c ≠ sep := fun hx => h (hx ▸ List.mem_cons_self c t)
    simp [cutChar, hcs, ih hct]

/-- `cutChar` splits at the first separator. -/
theorem cutChar_append_sep (sep : Char) :
    ∀ (a b : List Char), sep ∉ a → cutChar sep (a ++ sep :: b) = (a, some b) := by
  intro a
  induction a with
  | nil =>
    intro b _
    simp [cutChar]
  | cons c t ih =>
    intro b h
    have hct : sep ∉ t := fun hx => h (List.mem_cons_of_mem c hx)
    have hcs : c ≠ sep := fun hx => h (hx ▸ List.mem_cons_self c t)
    simp [cutChar, hcs, ih b hct]

/-- `toList` distributes over string concatenation. -/
theorem toList_append (a b : String) : (a ++ b).toList = a.toList ++ b.toList := by
  simp [String.toList, String.data_append]

/-- Structure of a successfully parsed URL: its components are made of
input characters, the input is control-free, the pre-query part holds no
`#` or `?`, and the raw query holds no `#`. -/
theorem urlParse_some_facts {input : String} {u : GoURL}
    (h : urlParse input = some u) :
    (∀ c ∈ u.beforeQuery.toList, c ∈ input.toList) ∧
    (∀ c ∈ u.rawQuery.toList, c ∈ input.toList) ∧
    (∀ f, u.frag = some f → ∀ c ∈ f.toList, c ∈ input.toList) ∧
    (∀ c ∈ input.toList, isCtl c = false) ∧
    '#' ∉ u.beforeQuery.toList ∧ '?' ∉ u.beforeQuery.toList ∧
    '#' ∉ u.rawQuery.toList := by
  unfold urlParse at h
  by_cases hctl : input.toList.any isCtl = true
  · rw [if_pos hctl] at h
    exact Option.noConfusion h
  · simp only [Bool.not_eq_true] at hctl
    rw [if_neg (fun hco => Bool.false_ne_true (hctl ▸ hco))] at h
    rcases hcut1 : cutChar '#' input.toList with ⟨rest, fr⟩
    rw [hcut1] at h
    dsimp only at h
    rcases hcut2 : cutChar '?' rest with ⟨pre, q⟩
    rw [hcut2] at h
    dsimp only at h
    have hu := (Option.some.inj h).symm
    subst hu
    have hrest_sub : ∀ c ∈ rest, c ∈ input.toList := by
      have h2 := cutChar_fst_subset '#' input.toList
      rw [hcut1] at h2
      exact h2
    have hrest_hash : '#' ∉ rest := by
      have h2 := cutChar_fst_not_sep '#' input.toList
      rw [hcut1] at h2
      exact h2
    have hpre_sub : ∀ c ∈ pre, c ∈ rest := by
      have h2 := cutChar_fst_subset '?' rest
      rw [hcut2] at h2
      exact h2
    have hpre_q : '?' ∉ pre := by
      have h2 := cutChar_fst_not_sep '?' rest
      rw [hcut2] at h2
      exact h2
    have hq_sub : ∀ c ∈ q.getD [], c ∈ rest := by
      cases hq : q with
      | none => intro c hc; cases hc
      | some qq =>
        have h2 : (cutChar '?' rest).2 = some qq := by rw [hcut2, hq]
        simpa using cutChar_snd_subset '?' rest qq h2
    have hctl2 : ∀ c ∈ input.toList, isCtl c = false := by
      intro c hc
      have h2 := List.any_eq_false.mp hctl c hc
      simpa using h2
    refine ⟨?_, ?_, ?_, hctl2, ?_, ?_, ?_⟩
    · intro c hc
      exact hrest_sub c (hpre_sub c hc)
    · intro c hc
      exact hrest_sub c (hq_sub c hc)
    · intro f hf c hc
      cases hfr : fr with
      | none =>
        rw [hfr] at hf
        exact Option.noConfusion hf
      | some fl =>
        rw [hfr] at hf
        simp only [Option.map_some', Option.some.injEq] at hf
        have h2 : (cutChar '#' input.toList).2 = some fl := by rw [hcut1, hfr]
        have hfl := cutChar_snd_subset '#' input.toList fl h2
        rw [← hf] at hc
        exact hfl c hc
    · intro hc
      exact hrest_hash (hpre_sub '#' hc)
    · exact hpre_q
    · intro hc
      exact hrest_hash (hq_sub '#' hc)

/-- Characters of an `&`-join come from the segments or are `&`. -/
theorem joinAmp_chars :
    ∀ (l : List (List Char)) (c : Char), c ∈ joinAmp l →
      c = '&' ∨ ∃ seg ∈ l, c ∈ seg := by
  intro l
  induction l with
  | nil => intro c hc; cases hc
  | cons s rest ih =>
    intro c hc
    cases rest with
    | nil =>
      right
      exact ⟨s, List.mem_cons_self _ _, hc⟩
    | cons s2 rest2 =>
      have hj : joinAmp (s :: s2 :: rest2) = s ++ '&' :: joinAmp (s2 :: rest2) := rfl
      rw [hj] at hc
      rcases List.mem_append.1 hc with hm | hm
      · right
        exact ⟨s, List.mem_cons_self _ _, hm⟩
      · rcases List.mem_cons.1 hm with he | hm2
        · left
          exact he
        · rcases ih c hm2 with he | ⟨seg, hseg, hcs⟩
          · left
            exact he
          · right
            exact ⟨seg, List.mem_cons_of_mem s hseg, hcs⟩

/-- The encoded query never holds `#`, `?`, or a control character. -/
theorem encodeValues_safe (vs : Values) :
    ∀ c ∈ encodeValues vs, c ≠ '#' ∧ c ≠ '?' ∧ isCtl c = false := by
  intro c hc
  unfold encodeValues at hc
  rcases joinAmp_chars (encodeSegments vs) c hc with he | ⟨seg, hseg, hcs⟩
  · rw [he]
    exact ⟨by decide, by decide, by decide⟩
  · unfold encodeSegments at hseg
    rcases List.mem_flatMap.1 hseg with ⟨p, -, hseg2⟩
    rcases List.mem_map.1 hseg2 with ⟨w, -, rfl⟩
    rcases List.mem_append.1 hcs with hm | hm
    · obtain ⟨-, -, -, h4, h5, h6⟩ := queryEscape_safe _ c hm
      exact ⟨h4, h5, h6⟩
    · rcases List.mem_cons.1 hm with he | hm2
      · rw [he]
        exact ⟨by decide, by decide, by decide⟩
      · obtain ⟨-, -, -, h4, h5, h6⟩ := queryEscape_safe _ c hm2
        exact ⟨h4, h5, h6⟩

/-- Every built segment is non-empty (it contains its `=`). -/
theorem encodeSegments_mem_ne_nil (vs : Values) :
    ∀ seg ∈ encodeSegments vs, seg ≠ [] := by
  intro seg hseg
  unfold encodeSegments at hseg
  rcases List.mem_flatMap.1 hseg with ⟨p, -, hseg2⟩
  rcases List.mem_map.1 hseg2 with ⟨w, -, rfl⟩
  simp

/-- The encoded query of a non-empty map with non-empty value lists is
non-empty. -/
theorem encodeValues_ne_nil (vs : Values) (hvs : vs ≠ [])
    (hne : ∀ p ∈ vs, p.2 ≠ []) : encodeValues vs ≠ [] := by
  unfold encodeValues
  cases hs : encodeSegments vs with
  | nil => exact absurd hs (encodeSegments_ne_nil vs hvs hne)
  | cons s rest =>
    have hsne : s ≠ [] := by
      apply encodeSegments_mem_ne_nil vs s
      rw [hs]
      exact List.mem_cons_self _ _
    cases rest with
    | nil => simpa [joinAmp] using hsne
    | cons s2 rest2 =>
      have hj : joinAmp (s :: s2 :: rest2) = s ++ '&' :: joinAmp (s2 :: rest2) := rfl
      rw [hj]
      simp

/-- Re-parsing a printed URL with a non-empty control-free query recovers
its fields. -/
theorem urlParse_urlString (u : GoURL)
    (hbq_ctl : ∀ c ∈ u.beforeQuery.toList, isCtl c = false)
    (hbq_hash : '#' ∉ u.beforeQuery.toList)
    (hbq_q : '?' ∉ u.beforeQuery.toList)
    (hq_ctl : ∀ c ∈ u.rawQuery.toList, isCtl c = false)
    (hq_hash : '#' ∉ u.rawQuery.toList)
    (hq_q : '?' ∉ u.rawQuery.toList)
    (hq_ne : u.rawQuery ≠ "")
    (hf_ctl : ∀ f, u.frag = some f → ∀ c ∈ f.toList, isCtl c = false) :
    urlParse (urlString u) = some u := by
  obtain ⟨bq, rq, fr⟩ := u
  simp only at hbq_ctl hbq_hash hbq_q hq_ctl hq_hash hq_q hq_ne hf_ctl
  unfold urlString
  simp only [if_neg hq_ne]
  cases fr with
  | none =>
    have htl : (bq ++ ("?" ++ rq) ++ "").toList = bq.toList ++ '?' :: rq.toList := by
      rw [toList_append, toList_append, toList_append]
      simp
    unfold urlParse
    rw [htl]
    have hctl : (bq.toList ++ '?' :: rq.toList).any isCtl = false := by
      rw [List.any_eq_false]
      intro c hc
      rcases List.mem_append.1 hc with hm | hm
      · simp [hbq_ctl c hm]
      · rcases List.mem_cons.1 hm with he | hm2
        · rw [he]
          decide
        · simp [hq_ctl c hm2]
    rw [if_neg (fun hco => Bool.false_ne_true (hctl ▸ hco))]
    have hnohash : '#' ∉ bq.toList ++ '?' :: rq.toList := by
      intro hm
      rcases List.mem_append.1 hm with hm | hm
      · exact hbq_hash hm
      · rcases List.mem_cons.1 hm with he | hm2
        · exact absurd he (by decide)
        · exact hq_hash hm2
    rw [cutChar_no_sep '#' _ hnohash]
    dsimp only
    rw [cutChar_append_sep '?' bq.toList rq.toList hbq_q]
    rfl
  | some f =>
    have htl : (bq ++ ("?" ++ rq) ++ ("#" ++ f)).toList =
        (bq.toList ++ '?' :: rq.toList) ++ '#' :: f.toList := by
      rw [toList_append, toList_append, toList_append]
      simp
    unfold urlParse
    rw [htl]
    have hfc : ∀ c ∈ f.toList, isCtl c = false := hf_ctl f rfl
    have hctl : ((bq.toList ++ '?' :: rq.toList) ++ '#' :: f.toList).any isCtl = false := by
      rw [List.any_eq_false]
      intro c hc
      rcases List.mem_append.1 hc with hm | hm
      · rcases List.mem_append.1 hm with hm2 | hm2
        · simp [hbq_ctl c hm2]
        · rcases List.mem_cons.1 hm2 with he | hm3
          · rw [he]
            decide
          · simp [hq_ctl c hm3]
      · rcases List.mem_cons.1 hm with he | hm2
        · rw [he]
          decide
        · simp [hfc c hm2]
    rw [if_neg (fun hco => Bool.false_ne_true (hctl ▸ hco))]
    have hnohash : '#' ∉ bq.toList ++ '?' :: rq.toList := by
      intro hm
      rcases List.mem_append.1 hm with hm | hm
      · exact hbq_hash hm
      · rcases List.mem_cons.1 hm with he | hm2
        · exact absurd he (by decide)
        · exact hq_hash hm2
    rw [cutChar_append_sep '#' _ f.toList hnohash]
    dsimp only
    rw [cutChar_append_sep '?' bq.toList rq.toList hbq_q]
    rfl

/-- `setKey` keeps the key list unchanged. -/
theorem keysOf_setKey (vs : Values) (key payload : String) :
    keysOf (setKey vs key payload) = keysOf vs := by
  unfold keysOf setKey
  rw [List.map_map]
  apply List.map_congr_left
  intro p _
  by_cases h : p.1 = key <;> simp [h]

/-- `setKey` keeps value lists non-empty. -/
theorem setKey_values_ne (vs : Values) (key payload : String)
    (h : ∀ p ∈ vs, p.2 ≠ []) : ∀ p ∈ setKey vs key payload, p.2 ≠ [] := by
  intro p hp
  rcases List.mem_map.1 hp with ⟨q, hq, rfl⟩
  by_cases he : q.1 = key
  · simp [he]
  · simp only [he, if_false]
    exact h q hq

/-- `setKey` keeps the map byte-sized when the payload is. -/
theorem setKey_chars (vs : Values) (key payload : String)
    (hbl : ∀ p ∈ vs, (∀ c ∈ p.1.toList, c.toNat < 256) ∧
      ∀ w ∈ p.2, ∀ c ∈ w.toList, c.toNat < 256)
    (hpl : ∀ c ∈ payload.toList, c.toNat < 256) :
    ∀ p ∈ setKey vs key payload,
      (∀ c ∈ p.1.toList, c.toNat < 256) ∧
        ∀ w ∈ p.2, ∀ c ∈ w.toList, c.toNat < 256 := by
  intro p hp
  rcases List.mem_map.1 hp with ⟨q, hq, rfl⟩
  by_cases he : q.1 = key
  · simp only [he, if_true]
    refine ⟨he ▸ (hbl q hq).1, ?_⟩
    intro w hw
    simp only [List.mem_singleton] at hw
    rw [hw]
    exact hpl
  · simp only [he, if_false]
    exact hbl q hq

/-- Claim C1 counterexample: for the input `http://x/?a=1&b=x%20y` with
payload `P` (two distinct keys, parsed in order `a`, `b`), neither of the
two possible map iteration orders produces the list the claim predicts
(candidates in parse order with all other parameters byte-identical):
`Values.Encode` re-encodes `b`'s value `x%20y` as `x+y`, so the candidate
for `a` is `http://x/?a=P&b=x+y`, not `http://x/?a=P&b=x%20y`, and the
candidate order follows the unspecified map order, not the parse order. -/
theorem query_fanout_counterexample :
    keysOf (parseQueryValues "a=1&b=x%20y") = ["a", "b"] ∧
    GenerateTargetURLs "http://x/?a=1&b=x%20y" "P" ["a", "b"] =
      Except.ok ["http://x/?a=P&b=x+y", "http://x/?a=1&b=P"] ∧
    GenerateTargetURLs "http://x/?a=1&b=x%20y" "P" ["b", "a"] =
      Except.ok ["http://x/?a=1&b=P", "http://x/?a=P&b=x+y"] ∧
    GenerateTargetURLs "http://x/?a=1&b=x%20y" "P" ["a", "b"] ≠
      Except.ok ["http://x/?a=P&b=x%20y", "http://x/?a=1&b=P"] ∧
    GenerateTargetURLs "http://x/?a=1&b=x%20y" "P" ["b", "a"] ≠
      Except.ok ["http://x/?a=P&b=x%20y", "http://x/?a=1&b=P"] :=
  ⟨rfl, rfl, rfl, by decide, by decide⟩

/-- Claim C1 (amended): for every placeholder-free input URL that parses
with a non-empty query, and every enumeration `order` of its distinct
parameter keys (Go's map iteration order is unspecified, so all
enumerations are quantified), the generator succeeds with exactly one
candidate per distinct key, the candidate for key `K` being the URL
rebuilt with the query re-encoded canonically (sorted keys, query
escaping) after `K`'s values are replaced by the payload; for byte-sized
inputs each candidate re-parses to the same pre-query part and fragment,
and to exactly the original decoded parameters with only `K`'s value
replaced — the other parameters are preserved up to percent-decoding and
canonical re-encoding, not byte-identically, and candidate order follows
the enumeration, not the parse order. -/
theorem query_fanout_amended (inputURL payload : String) (order : List String)
    (u : GoURL)
    (hph : goContains inputURL placeholderTok = false)
    (hu : urlParse inputURL = some u)
    (hqp : parseQueryValues u.rawQuery ≠ [])
    (hord : order.Perm (keysOf (parseQueryValues u.rawQuery)))
    (hbli : byteLike inputURL = true)
    (hblp : byteLike payload = true) :
    GenerateTargetURLs inputURL payload order =
      Except.ok (order.map (buildTarget u (parseQueryValues u.rawQuery) payload)) ∧
    (order.map (buildTarget u (parseQueryValues u.rawQuery) payload)).length =
      (keysOf (parseQueryValues u.rawQuery)).length ∧
    ∀ key ∈ keysOf (parseQueryValues u.rawQuery),
      ∃ u2, urlParse (buildTarget u (parseQueryValues u.rawQuery) payload key) = some u2 ∧
        u2.beforeQuery = u.beforeQuery ∧
        u2.frag = u.frag ∧
        ∀ k, getValues (parseQueryValues u2.rawQuery) k =
          getValues (setKey (parseQueryValues u.rawQuery) key payload) k := by
  obtain ⟨hbq_sub, hq_sub, hf_sub, hctl, hbq_hash, hbq_q, hq_hash⟩ :=
    urlParse_some_facts hu
  have hbli2 : ∀ c ∈ inputURL.toList, c.toNat < 256 := (byteLikeL_iff _).mp hbli
  have hblp2 : ∀ c ∈ payload.toList, c.toNat < 256 := (byteLikeL_iff _).mp hblp
  have hqbl : ∀ c ∈ u.rawQuery.toList, c.toNat < 256 :=
    fun c hc => hbli2 c (hq_sub c hc)
  refine ⟨?_, ?_, ?_⟩
  · unfold GenerateTargetURLs
    simp only [hph, Bool.false_eq_true, if_false, hu]
    have hne2 : (parseQueryValues u.rawQuery).isEmpty = false := by
      cases hqe : parseQueryValues u.rawQuery with
      | nil => exact absurd hqe hqp
      | cons a b => rfl
    simp only [hne2, Bool.false_eq_true, if_false]
  · rw [List.length_map]
    exact hord.length_eq
  · intro key hkey
    have hnodqp : (keysOf (parseQueryValues u.rawQuery)).Nodup :=
      parseQueryValues_nodup u.rawQuery
    have hneqp : ∀ p ∈ parseQueryValues u.rawQuery, p.2 ≠ [] :=
      parseQueryValues_values_ne u.rawQuery
    have hblqp := parseQueryValues_chars u.rawQuery hqbl
    have hkeysvs : keysOf (setKey (parseQueryValues u.rawQuery) key payload) =
        keysOf (parseQueryValues u.rawQuery) := keysOf_setKey _ key payload
    have hnodvs : (keysOf (setKey (parseQueryValues u.rawQuery) key payload)).Nodup :=
      hkeysvs ▸ hnodqp
    have hnevs : ∀ p ∈ setKey (parseQueryValues u.rawQuery) key payload, p.2 ≠ [] :=
      setKey_values_ne _ key payload hneqp
    have hblvs := setKey_chars _ key payload hblqp hblp2
    have hvsne : setKey (parseQueryValues u.rawQuery) key payload ≠ [] := by
      intro hv
      have hkv : keysOf (setKey (parseQueryValues u.rawQuery) key payload) = [] := by
        rw [hv]
        rfl
      rw [hkeysvs] at hkv
      rw [hkv] at hkey
      cases hkey
    have hrqne : String.mk (encodeValues (setKey (parseQueryValues u.rawQuery) key payload)) ≠ "" := by
      intro he
      have hl : encodeValues (setKey (parseQueryValues u.rawQuery) key payload) = [] := by
        have h2 := congrArg String.toList he
        simpa using h2
      exact encodeValues_ne_nil _ hvsne hnevs hl
    have hsafe := encodeValues_safe (setKey (parseQueryValues u.rawQuery) key payload)
    have hq2_ctl : ∀ c ∈ (String.mk (encodeValues (setKey (parseQueryValues u.rawQuery) key payload))).toList,
        isCtl c = false := fun c hc => (hsafe c hc).2.2
    have hq2_hash : '#' ∉ (String.mk (encodeValues (setKey (parseQueryValues u.rawQuery) key payload))).toList :=
      fun hc => (hsafe '#' hc).1 rfl
    have hq2_q : '?' ∉ (String.mk (encodeValues (setKey (parseQueryValues u.rawQuery) key payload))).toList :=
      fun hc => (hsafe '?' hc).2.1 rfl
    have hbq_ctl : ∀ c ∈ u.beforeQuery.toList, isCtl c = false :=
      fun c hc => hctl c (hbq_sub c hc)
    have hf_ctl : ∀ f, u.frag = some f → ∀ c ∈ f.toList, isCtl c = false :=
      fun f hf c hc => hctl c (hf_sub f hf c hc)
    have hparse := urlParse_urlString
      ⟨u.beforeQuery, String.mk (encodeValues (setKey (parseQueryValues u.rawQuery) key payload)), u.frag⟩
      hbq_ctl hbq_hash hbq_q hq2_ctl hq2_hash hq2_q hrqne hf_ctl
    refine ⟨⟨u.beforeQuery, String.mk (encodeValues (setKey (parseQueryValues u.rawQuery) key payload)), u.frag⟩,
      ?_, rfl, rfl, ?_⟩
    · exact hparse
    · intro k
      have hroundtrip := parse_encodeValues _ hnodvs hnevs hblvs
      have hperm := sortKeys_perm (setKey (parseQueryValues u.rawQuery) key payload)
      have hnodsort : (keysOf (sortKeys (setKey (parseQueryValues u.rawQuery) key payload))).Nodup := by
        have hmp := hperm.map (fun p : String × List String => p.1)
        unfold keysOf at hnodvs ⊢
        exact hmp.nodup_iff.mpr hnodvs
      have hgv := getValues_perm hperm hnodsort k
      calc getValues (parseQueryValues
            (String.mk (encodeValues (setKey (parseQueryValues u.rawQuery) key payload)))) k
          = getValues (sortKeys (setKey (parseQueryValues u.rawQuery) key payload)) k := by
            rw [hroundtrip]
        _ = getValues (setKey (parseQueryValues u.rawQuery) key payload) k := hgv

/-- Witness for C1 (amended) at the counterexample input: with the
enumeration order `b`, `a` the generator yields one candidate per key,
and the candidate replacing `a` re-parses to the same pre-query part with
exactly `a` set to the payload. -/
theorem query_fanout_amended_witness :
    GenerateTargetURLs "http://x/?a=1&b=x%20y" "P" ["b", "a"] =
      Except.ok (["b", "a"].map (buildTarget ⟨"http://x/", "a=1&b=x%20y", none⟩
        (parseQueryValues "a=1&b=x%20y") "P")) ∧
    (["b", "a"].map (buildTarget ⟨"http://x/", "a=1&b=x%20y", none⟩
        (parseQueryValues "a=1&b=x%20y") "P")).length =
      (keysOf (parseQueryValues "a=1&b=x%20y")).length := by
  have h := query_fanout_amended "http://x/?a=1&b=x%20y" "P" ["b", "a"]
    ⟨"http://x/", "a=1&b=x%20y", none⟩ (by decide) (by decide) (by decide)
    (by decide) (by decide) (by decide)
  exact ⟨h.1, h.2.1⟩
